import Mathlib

/-!
# Verification of the `TreeNode` core of `pygenomics.coretype.tree`

Two shallow embeddings of the `TreeNode` class are developed.

* A value model (`TreeNode` below): an immutable rose tree carrying the
  node attributes `dist`, `name`, `collapsed` and the ordered `children`
  list.  A concrete node of a Python tree is identified with its *path*
  from the root (the list of child indices), which faithfully models
  object identity of distinct-but-equal subtrees.  The pure query
  operations (`traverse`, `get_common_ancestor`, `get_distance`,
  `get_farthest_leaf`) are translated into this model.

* A store model (`Store` below): a heap of mutable node records indexed
  by numeric ids, with `up` / `children` pointer fields.  The mutating
  operations (`add_child`, `remove_child`, `delete`, `prune`,
  `set_outgroup`, `collapse`, `expand`) are translated into this model as
  explicit state-passing functions; a Python exception is modelled as the
  `none` result, and loops of the source are given a fuel argument (the
  source loops terminate on well-formed trees; fuel makes the embedding
  total on arbitrary stores).
-/

/-- A node of the value model: the attributes `dist`, `name`, `collapsed`
set by `TreeNode.__init__`, and the ordered list of children. -/
inductive TreeNode : Type
  | node (dist : ℚ) (name : String) (collapsed : Bool) (children : List TreeNode)

/-- The `children` attribute. -/
def TreeNode.children : TreeNode → List TreeNode
  | .node _ _ _ c => c

/-- The `dist` attribute (branch length to the parent). -/
def TreeNode.dist : TreeNode → ℚ
  | .node d _ _ _ => d

/-- The `name` attribute. -/
def TreeNode.name : TreeNode → String
  | .node _ n _ _ => n

/-- The `collapsed` attribute. -/
def TreeNode.collapsed : TreeNode → Bool
  | .node _ _ c _ => c

/-- `TreeNode.is_leaf`: `self.collapsed or len(self.children)==0`. -/
def leafB (t : TreeNode) : Bool :=
  t.collapsed || t.children.isEmpty

/-- A node of a tree is identified by its path of child indices from the
root; `[]` is the root itself. -/
abbrev NPath := List Nat

/-- The subtree sitting at a path, if the path denotes a node. -/
def subtreeAt : TreeNode → NPath → Option TreeNode
  | t, [] => some t
  | t, i :: p =>
    match t.children[i]? with
    | some c => subtreeAt c p
    | none => none

mutual
/-- All paths of nodes inside a tree (the node set of the subtree, as
`set(node.traverse())` denotes it: one entry per concrete node). -/
def allPaths : TreeNode → List NPath
  | .node _ _ _ ch => [] :: allPathsL ch 0

/-- Paths of all nodes in a forest, child `k` of the forest being indexed
`i + k`. -/
def allPathsL : List TreeNode → Nat → List NPath
  | [], _ => []
  | c :: cs, i => (allPaths c).map (fun p => i :: p) ++ allPathsL cs (i + 1)
end

/-- The set of nodes (as paths of the whole tree) below-or-at the node at
path `c`: models `set(n for n in s.traverse())` for the subtree `s` at
`c`. -/
def subtreePaths (t : TreeNode) (c : NPath) : List NPath :=
  match subtreeAt t c with
  | some u => (allPaths u).map (fun q => c ++ q)
  | none => []

/-- Number of children of the node at a path. -/
def childCount (t : TreeNode) (c : NPath) : Nat :=
  match subtreeAt t c with
  | some u => u.children.length
  | none => 0

/-- One round of set growth in `get_common_ancestor`:
`[n for s in current.children for n in s.traverse() if s != prev_node] + [current]`
(child subtrees of `cur` other than the one the loop came up from, plus
`cur` itself). -/
def newNodesAt (t : TreeNode) (cur pn : NPath) : List NPath :=
  ((List.range (childCount t cur)).filter (fun j => cur ++ [j] ≠ pn)).flatMap
    (fun j => subtreePaths t (cur ++ [j])) ++ [cur]

/-- The `while current is not None` loop of `get_common_ancestor`: `below`
is `nodes_bellow`, `pn` is `prev_node`, `cur` is `current`; walking to the
parent is dropping the last path component, and `current = None` is the
`cur = []` guard failing.  The fuel is an upper bound on the loop trips
(the source loop climbs a finite parent chain). -/
def gcaLoop (t : TreeNode) (a b : NPath) :
    Nat → List NPath → NPath → NPath → Option NPath
  | 0, _, _, _ => none
  | fuel + 1, below, pn, cur =>
    let below2 := below ++ newNodesAt t cur pn
    if a ∈ below2 ∧ b ∈ below2 then some cur
    else if cur = [] then none
    else gcaLoop t a b fuel below2 cur cur.dropLast

/-- `TreeNode.get_common_ancestor` for two nodes: `a` is `self`, `b` the
single target; `targets = {self, b}`, `nodes_bellow = {self}`,
`prev_node = current = self` initially. -/
def get_common_ancestor (t : TreeNode) (a b : NPath) : Option NPath :=
  gcaLoop t a b (a.length + 1) [a] a a

/-- Longest common prefix of two paths (the specification value of the
common-ancestor search). -/
def lcp : NPath → NPath → NPath
  | i :: p, j :: q => if i = j then i :: lcp p q else []
  | _, _ => []

/-- `dist` of the node at a path (`current.dist` while climbing). -/
def nodeDist (t : TreeNode) (p : NPath) : ℚ :=
  match subtreeAt t p with
  | some u => u.dist
  | none => 0

/-- The `while current != ancestor: dist += current.dist; current = current.up`
loop of `get_distance`, climbing from `p` to the ancestor `anc`; fuel
bounds the climb (=`p.length` suffices when `anc` is an ancestor). -/
def climbSum (t : TreeNode) (anc : NPath) : Nat → NPath → ℚ
  | 0, _ => 0
  | fuel + 1, p =>
    if p = anc then 0
    else
      match p with
      | [] => 0
      | _ => nodeDist t p + climbSum t anc fuel p.dropLast

/-- `TreeNode.get_distance`: the common ancestor is found first (error —
here `none` — when there is none), then the `dist` values are summed from
`self` and from `target` up to the ancestor. -/
def get_distance (t : TreeNode) (a b : NPath) : Option ℚ :=
  match get_common_ancestor t a b with
  | none => none
  | some anc => some (climbSum t anc a.length a + climbSum t anc b.length b)

mutual
/-- Number of nodes of a tree (used as loop fuel for the traversal
queue: the queue pops exactly one entry per node). -/
def tsize : TreeNode → Nat
  | .node _ _ _ ch => 1 + tsizeL ch

/-- Number of nodes of a forest. -/
def tsizeL : List TreeNode → Nat
  | [] => 0
  | c :: cs => tsize c + tsizeL cs
end

/-- The loop of `_iter_descendants_preorder`:
`tovisit.pop(0)` takes from the *front* of the work list and
`tovisit.extend(current.children)` appends at the back, so the work list
is a queue.  Fuel bounds the number of pops. -/
def tovisitLoop : Nat → List TreeNode → List TreeNode
  | 0, _ => []
  | _ + 1, [] => []
  | fuel + 1, c :: rest => c :: tovisitLoop fuel (rest ++ c.children)

/-- `TreeNode._iter_descendants_preorder`, run to completion
(`tsize t` pops empty the queue). -/
def iter_descendants_preorder (t : TreeNode) : List TreeNode :=
  tovisitLoop (tsize t) [t]

/-- `TreeNode.traverse(strategy)`: dispatch on the strategy string.  Only
the `"preorder"` branch is modelled (no claim exercises the
`"postorder"` branch); any other strategy returns `None` in the source,
modelled as `none`. -/
def traverse (t : TreeNode) (strategy : String) : Option (List TreeNode) :=
  if strategy = "preorder" then some (iter_descendants_preorder t) else none

mutual
/-- Specification-side definition (from the spec's words, for comparison
with `traverse`): genuine preorder — a node, then each child's whole
subtree, left to right. -/
def preorderList : TreeNode → List TreeNode
  | .node d nm c ch => .node d nm c ch :: preorderListL ch

/-- Preorder of a forest. -/
def preorderListL : List TreeNode → List TreeNode
  | [] => []
  | c :: cs => preorderList c ++ preorderListL cs
end

/-- The increment a child edge contributes in `get_farthest_leaf`:
`d += 1.0` when `topology_only` else `d += ch.dist`. -/
def edgeW (topo : Bool) (c : TreeNode) : ℚ :=
  if topo then 1 else c.dist

mutual
/-- `TreeNode.get_farthest_leaf`: a leaf returns `(self, 0.0)`; otherwise
the children are scanned in order, keeping the candidate whenever
`d >= max_dist`.  The returned node is reported as a path relative to the
starting node (`none` models the Python `None` start value of
`max_node`). -/
def get_farthest_leaf (topo : Bool) : TreeNode → Option NPath × ℚ
  | .node _ _ co ch =>
    if co || ch.isEmpty then (some [], 0)
    else gflKids topo ch 0 none 0

/-- The `for ch in self.children` loop of `get_farthest_leaf`: `i` is the
index of the next child, `(mn, md)` are `(max_node, max_dist)`. -/
def gflKids (topo : Bool) : List TreeNode → Nat → Option NPath → ℚ → Option NPath × ℚ
  | [], _, mn, md => (mn, md)
  | c :: cs, i, mn, md =>
    let r := get_farthest_leaf topo c
    let e := r.2 + edgeW topo c
    if md ≤ e then gflKids topo cs (i + 1) (r.1.map (fun q => i :: q)) e
    else gflKids topo cs (i + 1) mn md
end

/-- The leaves `get_farthest_leaf` can reach from the root of `t`: a path
to a node that `is_leaf` holds at, with no `is_leaf` node strictly above
it (the recursion stops at the first collapsed-or-childless node). -/
def visibleLeafB (t : TreeNode) : NPath → Bool
  | [] => leafB t
  | j :: q =>
    !leafB t &&
      (match t.children[j]? with
       | some c => visibleLeafB c q
       | none => false)

/-- Total edge weight of a path from the root of `t` (each step
contributes `1` in topology-only mode, else the child's `dist`). -/
def pathWeight (topo : Bool) : TreeNode → NPath → ℚ
  | _, [] => 0
  | t, j :: q =>
    match t.children[j]? with
    | some c => edgeW topo c + pathWeight topo c q
    | none => 0

mutual
/-- All `dist` attributes in the tree are non-negative (the spec's data
model: `dist` is a non-negative real). -/
def nonnegB : TreeNode → Bool
  | .node d _ _ ch => decide (0 ≤ d) && nonnegBL ch

/-- Non-negativity over a forest. -/
def nonnegBL : List TreeNode → Bool
  | [] => true
  | c :: cs => nonnegB c && nonnegBL cs
end

/-- A concrete tree `((A,B)X,C)R`, used to exhibit the traversal order. -/
def exTree : TreeNode :=
  .node 1 "R" false
    [.node 1 "X" false [.node 1 "A" false [], .node 1 "B" false []],
     .node 1 "C" false []]

/-- A two-leaf tie tree: both leaves sit at distance `1` from the root. -/
def exTie : TreeNode :=
  .node 1 "t" false [.node 1 "A" false [], .node 1 "B" false []]

/-- The specification bundle for `get_farthest_leaf` rooted at `t`: the
function returns some reachable leaf path together with its weight, the
weight is maximal among all reachable leaves, and a leaf tying with the
returned one is the returned one or lexicographically earlier (the
`d >= max_dist` update keeps the *last* candidate in children order). -/
def GFLspec (topo : Bool) (t : TreeNode) : Prop :=
  ∃ q, get_farthest_leaf topo t = (some q, pathWeight topo t q) ∧
    0 ≤ pathWeight topo t q ∧
    visibleLeafB t q = true ∧
    (∀ r, visibleLeafB t r = true →
      pathWeight topo t r ≤ pathWeight topo t q) ∧
    (∀ r, visibleLeafB t r = true →
      pathWeight topo t r = pathWeight topo t q →
      r = q ∨ List.Lex (· < ·) r q)

/-! ## The store model

A heap of node records indexed by numeric ids.  Every Python attribute
assignment succeeds, so the store is total: writing at an id beyond the
current length pads the store with fresh default records first (an id the
program never produced simply denotes an untouched default record). -/

/-- A mutable `TreeNode` record: `up`, `children`, the three always-set
attributes (`dist`, `name`, `support`), the `collapsed` flag, and
`collapse_attr`, which models the *instance attribute named `collapse`*
that `TreeNode.collapse()` / `expand()` create (shadowing the method; it
is absent — `none` — until one of them runs). -/
structure NodeRec where
  up : Option Nat
  children : List Nat
  dist : ℚ
  name : String
  support : ℚ
  collapsed : Bool
  collapse_attr : Option Bool
deriving DecidableEq

/-- The record `TreeNode.__init__` builds: no parent, no children,
`dist = 1.0`, `name = "NoName"`, `support = 1.0`, `collapsed = False`. -/
def defaultNode : NodeRec :=
  { up := none, children := [], dist := 1, name := "NoName", support := 1,
    collapsed := false, collapse_attr := none }

/-- The heap: id `i` denotes entry `i` (default beyond the length). -/
abbrev Store := List NodeRec

/-- Read a node record. -/
def getN (s : Store) (i : Nat) : NodeRec := s.getD i defaultNode

/-- Write a node record (padding with defaults if `i` is beyond the
length, so that writes always land: Python attribute writes cannot
fail). -/
def setAt (s : Store) (i : Nat) (v : NodeRec) : Store :=
  (s ++ List.replicate (i + 1 - s.length) defaultNode).set i v

/-- `node.up = o`. -/
def updUp (s : Store) (i : Nat) (o : Option Nat) : Store :=
  setAt s i { getN s i with up := o }

/-- `node.children = l`. -/
def updChildren (s : Store) (i : Nat) (l : List Nat) : Store :=
  setAt s i { getN s i with children := l }

/-- `node.dist = q`. -/
def updDist (s : Store) (i : Nat) (q : ℚ) : Store :=
  setAt s i { getN s i with dist := q }

/-- `node.name = n`. -/
def updName (s : Store) (i : Nat) (n : String) : Store :=
  setAt s i { getN s i with name := n }

/-- `node.support = q`. -/
def updSupport (s : Store) (i : Nat) (q : ℚ) : Store :=
  setAt s i { getN s i with support := q }

/-- An argument Python will pass to `float(...)`: either a value `float`
accepts (any sign), or one it raises `ValueError` on. -/
inductive NumInput : Type
  | valid (q : ℚ)
  | invalid

/-- `float(x)`: the parsed value, or `none` for the `ValueError` case. -/
def toFloat : NumInput → Option ℚ
  | .valid q => some q
  | .invalid => none

/-- One optional-argument step of `add_child`: skip when absent, else
parse with `float` and store through `f` on success; `none` is the
`ValueError` turned `TreeError`. -/
def applyNum (s : Store) (c : Nat) (v : Option NumInput)
    (f : Store → Nat → ℚ → Store) : Option Store :=
  match v with
  | none => some s
  | some d =>
    match toFloat d with
    | none => none
    | some q => some (f s c q)

/-- The tail of `add_child` after the child node and its `name` are
settled: validate and set `dist` and `support` (failure raises before
the child is attached), then `self.children.append(child)` and
`child.up = self`. -/
def add_child_tail (s1 : Store) (self cid : Nat)
    (dist support : Option NumInput) : Option (Store × Nat) :=
  match applyNum s1 cid dist updDist with
  | none => none
  | some s2 =>
    match applyNum s2 cid support updSupport with
    | none => none
    | some s3 =>
      some (updUp (updChildren s3 self ((getN s3 self).children ++ [cid]))
              cid (some self), cid)

/-- `TreeNode.add_child(child, name, dist, support)`: create a fresh node
when `child is None`; set `name` (`str` of a string always succeeds),
then hand over to `add_child_tail`.  Returns the updated store and the
child's id. -/
def add_child (s0 : Store) (self : Nat) (child : Option Nat)
    (nm : Option String) (dist support : Option NumInput) :
    Option (Store × Nat) :=
  let pc : Store × Nat :=
    match child with
    | none => (s0 ++ [defaultNode], s0.length)
    | some c => (s0, c)
  let s1 : Store :=
    match nm with
    | none => pc.1
    | some n => updName pc.1 pc.2 n
  add_child_tail s1 self pc.2 dist support

/-- `TreeNode.remove_child(child)`: `self.children.remove(child)` (first
occurrence; `ValueError` → `TreeError` → `none` when absent), then
`child.up = None`. -/
def remove_child (s : Store) (self child : Nat) : Option Store :=
  if child ∈ (getN s self).children then
    some (updUp (updChildren s self ((getN s self).children.erase child))
            child none)
  else none

/-- The `for ch in self.children: self.up.add_child(ch)` loop of
`delete` (iterating over the snapshot of the list). -/
def moveChildren (s : Store) (u : Nat) : List Nat → Option Store
  | [] => some s
  | ch :: rest =>
    match add_child s u (some ch) none none none with
    | none => none
    | some (s', _) => moveChildren s' u rest

/-- `TreeNode.delete()`: nothing happens on a root (`if self.up:` fails);
otherwise every child is re-attached to the parent with `add_child` and
then `self.up.remove_child(self)` detaches the node. -/
def delete (s : Store) (i : Nat) : Option Store :=
  match (getN s i).up with
  | none => some s
  | some u =>
    match moveChildren s u (getN s i).children with
    | none => none
    | some s1 =>
      match (getN s1 i).up with
      | none => none
      | some u2 => remove_child s1 u2 i

/-- The per-leaf cascade of `prune`:
`while current is not None and (current == n or len(current.children)==1)`;
`next` is read before `delete()` runs.  Returns the final store and the
loop's final `current`.  Fuel bounds the climb. -/
def cascadeLoop (n : Nat) : Nat → Store → Option Nat → Option (Store × Option Nat)
  | 0, _, _ => none
  | fuel + 1, s, cur =>
    match cur with
    | none => some (s, none)
    | some c =>
      if c = n ∨ (getN s c).children.length = 1 then
        match delete s c with
        | none => none
        | some s' => cascadeLoop n fuel s' ((getN s c).up)
      else some (s, some c)

/-- The queue loop of `_iter_descendants_preorder` on the store
(`tovisit.pop(0)` / `tovisit.extend(current.children)`); fuel bounds the
pops. -/
def straverseLoop (s : Store) : Nat → List Nat → List Nat
  | 0, _ => []
  | _ + 1, [] => []
  | fuel + 1, i :: rest => i :: straverseLoop s fuel (rest ++ (getN s i).children)

/-- `node.traverse(strategy="preorder")` on the store. -/
def straverse (s : Store) (root : Nat) (fuel : Nat) : List Nat :=
  straverseLoop s fuel [root]

/-- `TreeNode.is_leaf` on the store. -/
def is_leafS (s : Store) (i : Nat) : Bool :=
  (getN s i).collapsed || (getN s i).children.isEmpty

/-- `TreeNode.get_leaves()`: the leaves among the preorder traversal. -/
def get_leaves (s : Store) (root : Nat) (fuel : Nat) : List Nat :=
  (straverse s root fuel).filter (fun i => is_leafS s i)

/-- `TreeNode.get_leaves_by_name(name)`. -/
def get_leaves_by_name (s : Store) (root : Nat) (nm : String) (fuel : Nat) :
    List Nat :=
  (get_leaves s root fuel).filter (fun i => (getN s i).name = nm)

/-- A `prune` selector entry: a node name or a node instance (id). -/
abbrev Selector := List (String ⊕ Nat)

/-- The `node_instances` set of `prune` (kept as a list; only membership
is ever used of it). -/
def node_instances (s : Store) (root : Nat) (sel : Selector) (fuel : Nat) :
    List Nat :=
  sel.foldl
    (fun acc l =>
      match l with
      | .inl nm => acc ++ get_leaves_by_name s root nm fuel
      | .inr n => acc ++ [n])
    []

/-- The `for n in to_delete` loop of `prune`, running one cascade per
marked leaf. -/
def pruneLoop (fuel : Nat) : Store → List Nat → Option Store
  | s, [] => some s
  | s, n :: rest =>
    match cascadeLoop n fuel s (some n) with
    | none => none
    | some (s', _) => pruneLoop fuel s' rest

/-- `TreeNode.prune(leaves, method)`: resolve the selector to node ids,
require them to be current leaves (`TreeError` — `none` — otherwise),
mark `to_delete` per the method (`none` for an unknown method), cascade
each marked leaf, and return the removed set (`to_delete` itself). -/
def prune (s : Store) (self : Nat) (leaves : Selector) (method : String)
    (fuel : Nat) : Option (Store × List Nat) :=
  let ni := node_instances s self leaves fuel
  let ls := get_leaves s self fuel
  if ni.all (fun i => i ∈ ls) then
    match
      (if method = "crop" then some ni
       else if method = "keep" then some (ls.filter (fun i => i ∉ ni))
       else none) with
    | none => none
    | some toDel =>
      match pruneLoop fuel s toDel with
      | none => none
      | some s' => some (s', toDel)
  else none

/-- The `while n.up is not self: n = n.up` search of `set_outgroup` for
the child of `self` on the path up from the outgroup; `none` models the
crash on reaching a parentless node. -/
def findConn (s : Store) (self : Nat) : Nat → Nat → Option Nat
  | 0, _ => none
  | fuel + 1, n =>
    match (getN s n).up with
    | none => none
    | some u => if u = self then some n else findConn s self fuel u

/-- The `for ch in self.get_childs()` loop moving the remaining children
of `self` under the fresh connector node `cid` (append to the connector,
redirect `up`, remove from `self`). -/
def moveToConnector (self cid : Nat) : Store → List Nat → Store
  | s, [] => s
  | s, ch :: rest =>
    let s1 := updChildren s cid ((getN s cid).children ++ [ch])
    let s2 := updUp s1 ch cid
    let s3 := updChildren s2 self ((getN s2 self).children.erase ch)
    moveToConnector self cid s3 rest

/-- The down-branch-connector step of `set_outgroup`, after
`self.children.remove(n)`: with more than one child left, a fresh node
with `dist = 0` takes them all over; with exactly one, that child is the
connector; with none, `self.children[0]` raises (`none`). -/
def mkConnector (s : Store) (self : Nat) : Option (Store × Nat) :=
  if 1 < (getN s self).children.length then
    let cid := s.length
    let s1 := s ++ [defaultNode]
    let s2 := updDist s1 cid 0
    some (moveToConnector self cid s2 ((getN s2 self).children), cid)
  else
    match (getN s self).children with
    | [] => none
    | c :: _ => some (s, c)

/-- The parent-child swapping loop of `set_outgroup`
(`while quien_va_ser_hijo is not self`): state is the store, the node
about to become a parent (`a`), the previous one (`prev`) and the
buffered `dist`; each trip re-reads `a`'s parent, reverses the edge and
shifts the `dist` values one step.  Returns the final loop state. -/
def revLoop (self : Nat) : Nat → Store → Nat → Option Nat → ℚ →
    Option (Store × Nat × Option Nat × ℚ)
  | 0, _, _, _, _ => none
  | fuel + 1, s, a, prev, buffered =>
    match (getN s a).up with
    | none => none
    | some b =>
      if b = self then some (s, a, prev, buffered)
      else
        let s1 := updChildren s a ((getN s a).children ++ [b])
        if a ∈ (getN s1 b).children then
          let s2 := updChildren s1 b ((getN s1 b).children.erase a)
          let b2 := (getN s2 b).dist
          let s3 := updDist s2 b buffered
          let s4 := updUp s3 a prev
          revLoop self fuel s4 b (some a) b2
        else none

/-- Everything `set_outgroup` does before the final reattachment: find
the down-branch child, remove it, build the connector, and either run the
reversal walk (when the outgroup's parent is not `self`, finishing with
`connector.dist += buffered`, `parent_outgroup.children.remove(outgroup)`
and `outgroup2.dist = 0`) or take the connector as `outgroup2`.  Returns
the store and `outgroup2`. -/
def set_outgroup_main (s : Store) (self og : Nat) (fuel : Nat) :
    Option (Store × Nat) :=
  match (getN s og).up with
  | none => none
  | some po =>
    match findConn s self fuel og with
    | none => none
    | some n =>
      if n ∈ (getN s self).children then
        let s1 := updChildren s self ((getN s self).children.erase n)
        match mkConnector s1 self with
        | none => none
        | some (s2, conn) =>
          if po = self then some (s2, conn)
          else
            match revLoop self fuel s2 po none ((getN s2 po).dist) with
            | none => none
            | some (s3, a, prev, buffered) =>
              let s4 := updChildren s3 a ((getN s3 a).children ++ [conn])
              let s5 := updUp s4 conn (some a)
              let s6 := updUp s5 a prev
              let s7 := updDist s6 conn ((getN s6 conn).dist + buffered)
              if og ∈ (getN s7 po).children then
                let s8 := updChildren s7 po ((getN s7 po).children.erase og)
                some (updDist s8 po 0, po)
              else none
      else none

/-- Insertion of an id into a sorted id list (for the final
`self.children.sort()`). -/
def insSorted (x : Nat) : List Nat → List Nat
  | [] => [x]
  | y :: ys => if x ≤ y then x :: y :: ys else y :: insSorted x ys

/-- `list.sort()` of the final two-child list.  Python 2 orders bare
objects by an arbitrary but fixed key (their addresses); the model uses
the ids ascending — any fixed permutation of the same two elements. -/
def sortIds : List Nat → List Nat
  | [] => []
  | x :: xs => insSorted x (sortIds xs)

/-- The tail of `set_outgroup`: `outgroup.up = self; outgroup2.up = self;
self.children = [outgroup, outgroup2]`, split
`(outgroup2.dist + outgroup.dist) / 2` evenly, and sort the pair. -/
def set_outgroup_final (s : Store) (self og og2 : Nat) : Store :=
  let s1 := updUp s og (some self)
  let s2 := updUp s1 og2 (some self)
  let s3 := updChildren s2 self [og, og2]
  let m := ((getN s3 og2).dist + (getN s3 og).dist) / 2
  let s4 := updDist s3 og m
  let s5 := updDist s4 og2 m
  updChildren s5 self (sortIds (getN s5 self).children)

/-- `TreeNode.set_outgroup(outgroup)`: immediate return when
`self == outgroup`, otherwise the main surgery followed by the final
reattachment. -/
def set_outgroup (s : Store) (self og : Nat) (fuel : Nat) : Option Store :=
  if self = og then some s
  else
    match set_outgroup_main s self og fuel with
    | none => none
    | some (s1, og2) => some (set_outgroup_final s1 self og og2)

/-- `TreeNode.collapse()`: `self.collapse = True` — this *creates an
instance attribute named `collapse`* (shadowing the method); the
`collapsed` field is not touched. -/
def collapseOp (n : NodeRec) : NodeRec :=
  { n with collapse_attr := some true }

/-- `TreeNode.expand()`: `self.collapse = False` — same attribute, same
shadowing; `collapsed` untouched. -/
def expandOp (n : NodeRec) : NodeRec :=
  { n with collapse_attr := some false }

/-- `TreeNode.is_leaf` of a record. -/
def is_leafN (n : NodeRec) : Bool :=
  n.collapsed || n.children.isEmpty

/-- A one-node store (a bare root), used as a concrete input. -/
def exStore1 : Store := [defaultNode]

/-- The store after `add_child` with a negative `dist` on `exStore1`
(the child gets attached with `dist = -1`). -/
def exStore1neg : Store :=
  ((add_child exStore1 0 none none (some (NumInput.valid (-1))) none).map
    Prod.fst).getD []

/-- A three-node store: root `0` with leaf children `1` (`A`) and `2`
(`B`). -/
def exStore3 : Store :=
  [{ defaultNode with name := "r", children := [1, 2] },
   { defaultNode with name := "A", up := some 0 },
   { defaultNode with name := "B", up := some 0 }]

/-- `exStore3` after `node1.add_child(node2)` — node `2` already has
parent `0`, which `add_child` does not detach it from. -/
def exStore3bad : Store :=
  ((add_child exStore3 1 (some 2) none none none).map Prod.fst).getD []

/-- `exStore3` after `node2.add_child()` (a fresh child, id `3`). -/
def exStore3w : Store :=
  ((add_child exStore3 2 none none none none).map Prod.fst).getD []

/-- A five-node store: root `0` with children leaf `1` (`A`) and inner
node `2` (`I`), whose children are the leaves `3` (`B`) and `4` (`C`). -/
def exStore5 : Store :=
  [{ defaultNode with name := "r", children := [1, 2] },
   { defaultNode with name := "A", up := some 0 },
   { defaultNode with name := "I", up := some 0, children := [3, 4] },
   { defaultNode with name := "B", up := some 2 },
   { defaultNode with name := "C", up := some 2 }]

/-- `exStore5` after `prune(["A"-node], method="keep")`: `B`, `C` and `I`
go away and the root is left holding the single child `A`. -/
def exStore5p : Store :=
  ((prune exStore5 0 [Sum.inr 1] "keep" 10).map Prod.fst).getD []

/-- A chain store: root `0` → inner `1` → leaf `2` (the root has a single
child). -/
def exStoreChain : Store :=
  [{ defaultNode with name := "r", children := [1] },
   { defaultNode with name := "x", up := some 0, children := [2] },
   { defaultNode with name := "og", up := some 1 }]

/-- Result of the pre-reattachment phase of `set_outgroup(node1)` on
`exStore3` (outgroup a direct child of the root). -/
def exStore3main : Store × Nat :=
  (set_outgroup_main exStore3 0 1 10).getD ([], 0)

/-- The parent/children consistency invariant of the data model, over
the ids of the store: every listed child points back with `up`, and
every node with a parent occurs exactly once in that parent's children
(ids are in range, so that they denote real records). -/
def InvB (s : Store) : Bool :=
  (List.range s.length).all (fun i =>
    (getN s i).children.all (fun c =>
      decide (c < s.length) && ((getN s c).up = some i)) &&
    (match (getN s i).up with
     | none => true
     | some p =>
       decide (p < s.length) && ((getN s p).children.count i = 1)))

/-! ## Basic store lemmas -/

theorem getN_of_length_le (s : Store) (i : Nat) (h : s.length ≤ i) :
    getN s i = defaultNode := by
  unfold getN
  rw [List.getD_eq_getElem?_getD, List.getElem?_eq_none h, Option.getD_none]

theorem length_setAt (s : Store) (i : Nat) (v : NodeRec) :
    (setAt s i v).length = max s.length (i + 1) := by
  simp only [setAt, List.length_set, List.length_append, List.length_replicate]
  omega

theorem getN_setAt (s : Store) (i : Nat) (v : NodeRec) (j : Nat) :
    getN (setAt s i v) j = if j = i then v else getN s j := by
  have hlen : i < (s ++ List.replicate (i + 1 - s.length) defaultNode).length := by
    simp only [List.length_append, List.length_replicate]
    omega
  unfold setAt getN
  rcases eq_or_ne j i with rfl | hne
  · simp [List.getD_eq_getElem?_getD, List.getElem?_set_self hlen]
  · simp only [if_neg hne, List.getD_eq_getElem?_getD,
      List.getElem?_set_ne (Ne.symm hne)]
    rcases lt_or_le j s.length with hj | hj
    · rw [List.getElem?_append]
      simp [hj]
    · rw [List.getElem?_append_right hj, List.getElem?_replicate,
        List.getElem?_eq_none hj]
      split <;> simp

theorem getN_append_one (s : Store) (v : NodeRec) (j : Nat) :
    getN (s ++ [v]) j = if j = s.length then v else getN s j := by
  unfold getN
  rw [List.getD_eq_getElem?_getD, List.getD_eq_getElem?_getD,
    List.getElem?_append]
  rcases lt_trichotomy j s.length with hj | rfl | hj
  · simp [hj, Nat.ne_of_lt hj]
  · simp
  · have h1 : ¬ j < s.length := by omega
    have h2 : j ≠ s.length := by omega
    have h3 : s.length ≤ j := by omega
    simp only [if_neg h1, if_neg h2]
    rw [List.getElem?_eq_none h3]
    rw [List.getElem?_eq_none (by simp; omega : ([v] : List NodeRec).length ≤ j - s.length)]

theorem getN_updUp (s : Store) (i : Nat) (o : Option Nat) (j : Nat) :
    getN (updUp s i o) j = if j = i then { getN s i with up := o } else getN s j := by
  unfold updUp; rw [getN_setAt]

theorem getN_updChildren (s : Store) (i : Nat) (l : List Nat) (j : Nat) :
    getN (updChildren s i l) j =
      if j = i then { getN s i with children := l } else getN s j := by
  unfold updChildren; rw [getN_setAt]

theorem getN_updDist (s : Store) (i : Nat) (q : ℚ) (j : Nat) :
    getN (updDist s i q) j = if j = i then { getN s i with dist := q } else getN s j := by
  unfold updDist; rw [getN_setAt]

theorem getN_updName (s : Store) (i : Nat) (n : String) (j : Nat) :
    getN (updName s i n) j = if j = i then { getN s i with name := n } else getN s j := by
  unfold updName; rw [getN_setAt]

theorem getN_updSupport (s : Store) (i : Nat) (q : ℚ) (j : Nat) :
    getN (updSupport s i q) j =
      if j = i then { getN s i with support := q } else getN s j := by
  unfold updSupport; rw [getN_setAt]

/-! ## Claim C10: `collapse()` and `expand()` do not touch `collapsed` -/

/-- C10: `collapse()` (and `expand()`) leave the `collapsed` attribute
unchanged, so `is_leaf()` answers the same before and after; `collapse()`
assigns `True` to the instance attribute named `collapse` (and `expand()`
`False`), not to `collapsed`. -/
theorem collapse_expand_leave_collapsed (n : NodeRec) :
    (collapseOp n).collapsed = n.collapsed ∧
    is_leafN (collapseOp n) = is_leafN n ∧
    (collapseOp n).collapse_attr = some true ∧
    (expandOp n).collapsed = n.collapsed ∧
    is_leafN (expandOp n) = is_leafN n ∧
    (expandOp n).collapse_attr = some false := by
  simp [collapseOp, expandOp, is_leafN]

/-! ## Claim C8: `add_child` validation of `dist` / `support` -/

/-- C8 (amended): `add_child` validates that `dist` and `support` parse
as real numbers via `float`; unparseable input makes the call fail (the
`TreeError`, `none` here) before the child is attached — but no sign
check is performed. -/
theorem add_child_rejects_unparseable :
    (∀ s self c nm sup, add_child s self c nm (some NumInput.invalid) sup = none) ∧
    (∀ s self c nm, add_child s self c nm none (some NumInput.invalid) = none) ∧
    (∀ s self c nm q,
      add_child s self c nm (some (NumInput.valid q)) (some NumInput.invalid) = none) := by
  refine ⟨?_, ?_, ?_⟩ <;> intros <;>
    simp [add_child, add_child_tail, applyNum, toFloat]

/-- C8 (counterexample): a *negative* `dist` is accepted — the call
succeeds and attaches the child with `dist = -1`, contradicting the
claimed non-negativity validation. -/
theorem add_child_accepts_negative_dist :
    add_child exStore1 0 none none (some (NumInput.valid (-1))) none =
      some (exStore1neg, 1) ∧
    (getN exStore1neg 1).dist = -1 ∧
    (getN exStore1neg 0).children = [1] ∧
    (getN exStore1neg 1).up = some 0 := by
  refine ⟨rfl, rfl, rfl, rfl⟩

/-! ## Claim C9: the parent/children invariant and `add_child` -/

theorem InvB_iff (s : Store) : InvB s = true ↔
    ∀ i, i < s.length →
      ((∀ c ∈ (getN s i).children, c < s.length ∧ (getN s c).up = some i) ∧
       (∀ p, (getN s i).up = some p →
          p < s.length ∧ (getN s p).children.count i = 1)) := by
  unfold InvB
  rw [List.all_eq_true]
  constructor
  · intro h i hi
    have hh := h i (List.mem_range.mpr hi)
    rw [Bool.and_eq_true, List.all_eq_true] at hh
    obtain ⟨h1, h2⟩ := hh
    refine ⟨fun c hc => ?_, fun p hp => ?_⟩
    · have := h1 c hc
      simp only [Bool.and_eq_true, decide_eq_true_eq] at this
      exact this
    · rw [hp] at h2
      simp only [Bool.and_eq_true, decide_eq_true_eq] at h2
      exact h2
  · intro h i hi
    rw [List.mem_range] at hi
    obtain ⟨h1, h2⟩ := h i hi
    rw [Bool.and_eq_true, List.all_eq_true]
    refine ⟨fun c hc => ?_, ?_⟩
    · simp only [Bool.and_eq_true, decide_eq_true_eq]
      exact h1 c hc
    · rcases hu : (getN s i).up with _ | p
      · rfl
      · simp only [Bool.and_eq_true, decide_eq_true_eq]
        exact h2 p hu

theorem invB_congr (sA sB : Store) (hlen : sA.length = sB.length)
    (hu : ∀ j, (getN sA j).up = (getN sB j).up)
    (hch : ∀ j, (getN sA j).children = (getN sB j).children) :
    InvB sA = InvB sB := by
  have key : ∀ (x y : Bool), (x = true ↔ y = true) → x = y := by
    intro x y h; cases x <;> cases y <;> simp_all
  apply key
  rw [InvB_iff, InvB_iff, hlen]
  constructor <;> intro h i hi <;> obtain ⟨h1, h2⟩ := h i hi
  · refine ⟨fun c hc => ?_, fun p hp => ?_⟩
    · rw [← hch] at hc
      rw [← hu]
      exact h1 c hc
    · rw [← hu] at hp
      rw [← hch]
      exact h2 p hp
  · refine ⟨fun c hc => ?_, fun p hp => ?_⟩
    · rw [hch] at hc
      rw [hu]
      exact h1 c hc
    · rw [hu] at hp
      rw [hch]
      exact h2 p hp

theorem invB_append_default (s : Store) (h : InvB s = true) :
    InvB (s ++ [defaultNode]) = true := by
  rw [InvB_iff] at h ⊢
  intro i hi
  rw [List.length_append, List.length_singleton] at hi
  by_cases hilt : i < s.length
  · obtain ⟨h1, h2⟩ := h i hilt
    constructor
    · intro c hc
      rw [getN_append_one, if_neg (Nat.ne_of_lt hilt)] at hc
      obtain ⟨hc1, hc2⟩ := h1 c hc
      refine ⟨by rw [List.length_append]; omega, ?_⟩
      rw [getN_append_one, if_neg (Nat.ne_of_lt hc1)]
      exact hc2
    · intro p hp
      rw [getN_append_one, if_neg (Nat.ne_of_lt hilt)] at hp
      obtain ⟨hp1, hp2⟩ := h2 p hp
      refine ⟨by rw [List.length_append]; omega, ?_⟩
      rw [getN_append_one, if_neg (Nat.ne_of_lt hp1)]
      exact hp2
  · have hieq : i = s.length := by omega
    subst hieq
    constructor
    · intro c hc
      rw [getN_append_one, if_pos rfl] at hc
      simp [defaultNode] at hc
    · intro p hp
      rw [getN_append_one, if_pos rfl] at hp
      simp [defaultNode] at hp

theorem not_mem_children_of_up_none (s : Store) (h : InvB s = true) (c : Nat)
    (hup : (getN s c).up = none) (j : Nat) : c ∉ (getN s j).children := by
  intro hmem
  by_cases hj : j < s.length
  · obtain ⟨h1, _⟩ := (InvB_iff s).mp h j hj
    have := (h1 c hmem).2
    rw [hup] at this
    cases this
  · rw [getN_of_length_le s j (by omega)] at hmem
    simp [defaultNode] at hmem

theorem invB_attach (s : Store) (self c : Nat) (hInv : InvB s = true)
    (hself : self < s.length) (hc : c < s.length)
    (hup : (getN s c).up = none) :
    InvB (updUp (updChildren s self ((getN s self).children ++ [c]))
      c (some self)) = true := by
  have hNM : ∀ j, c ∉ (getN s j).children :=
    not_mem_children_of_up_none s hInv c hup
  set s1 := updChildren s self ((getN s self).children ++ [c]) with hs1
  set s2 := updUp s1 c (some self) with hs2
  have hlen1 : s1.length = s.length := by
    rw [hs1]; unfold updChildren; rw [length_setAt]; omega
  have hlen2 : s2.length = s.length := by
    rw [hs2]; unfold updUp; rw [length_setAt]; omega
  have hup2 : ∀ j, (getN s2 j).up =
      if j = c then some self else (getN s j).up := by
    intro j
    rw [hs2, getN_updUp]
    by_cases hjc : j = c
    · simp [hjc]
    · simp only [if_neg hjc]
      rw [hs1, getN_updChildren]
      by_cases hjs : j = self <;> simp [hjs]
  have hch2 : ∀ j, (getN s2 j).children =
      if j = self then (getN s self).children ++ [c]
      else (getN s j).children := by
    intro j
    rw [hs2, getN_updUp]
    by_cases hjc : j = c
    · subst hjc
      simp only [if_pos rfl]
      rw [hs1, getN_updChildren]
      by_cases hjs : j = self <;> simp [hjs]
    · simp only [if_neg hjc]
      rw [hs1, getN_updChildren]
      by_cases hjs : j = self <;> simp [hjs]
  rw [InvB_iff]
  intro i hi
  rw [hlen2] at hi
  obtain ⟨g1, g2⟩ := (InvB_iff s).mp hInv i hi
  constructor
  · intro x hx
    rw [hch2] at hx
    by_cases his : i = self
    · rw [if_pos his] at hx
      rcases List.mem_append.mp hx with hxo | hxc
      · obtain ⟨hx1, hx2⟩ := ((InvB_iff s).mp hInv self hself).1 x hxo
        have hxc : x ≠ c := fun hh => hNM self (hh ▸ hxo)
        refine ⟨by omega, ?_⟩
        rw [hup2, if_neg hxc, hx2, his]
      · rw [List.mem_singleton] at hxc
        subst hxc
        refine ⟨by omega, ?_⟩
        rw [hup2, if_pos rfl, his]
    · rw [if_neg his] at hx
      obtain ⟨hx1, hx2⟩ := g1 x hx
      have hxc : x ≠ c := fun hh => hNM i (hh ▸ hx)
      refine ⟨by omega, ?_⟩
      rw [hup2, if_neg hxc, hx2]
  · intro p hp
    rw [hup2] at hp
    by_cases hic : i = c
    · rw [if_pos hic] at hp
      injection hp with hp
      subst hp
      subst hic
      refine ⟨by omega, ?_⟩
      rw [hch2, if_pos rfl, List.count_append]
      have h0 : List.count i (getN s self).children = 0 :=
        List.count_eq_zero.mpr (hNM self)
      simp [h0]
    · rw [if_neg hic] at hp
      obtain ⟨hp1, hp2⟩ := g2 p hp
      refine ⟨by omega, ?_⟩
      rw [hch2]
      by_cases hps : p = self
      · subst hps
        rw [if_pos rfl, List.count_append, hp2]
        have : List.count i [c] = 0 := by
          simp [List.count_singleton]
          exact fun hh => hic hh.symm
        omega
      · rw [if_neg hps]
        exact hp2

theorem length_updUp (s : Store) (i : Nat) (o : Option Nat) :
    (updUp s i o).length = max s.length (i + 1) := by
  unfold updUp; rw [length_setAt]

theorem length_updChildren (s : Store) (i : Nat) (l : List Nat) :
    (updChildren s i l).length = max s.length (i + 1) := by
  unfold updChildren; rw [length_setAt]

theorem length_updDist (s : Store) (i : Nat) (q : ℚ) :
    (updDist s i q).length = max s.length (i + 1) := by
  unfold updDist; rw [length_setAt]

theorem up_updChildren (s : Store) (i : Nat) (l : List Nat) (j : Nat) :
    (getN (updChildren s i l) j).up = (getN s j).up := by
  rw [getN_updChildren]; by_cases h : j = i <;> simp [h]

theorem children_updUp (s : Store) (i : Nat) (o : Option Nat) (j : Nat) :
    (getN (updUp s i o) j).children = (getN s j).children := by
  rw [getN_updUp]; by_cases h : j = i <;> simp [h]

theorem up_updUp (s : Store) (i : Nat) (o : Option Nat) (j : Nat) :
    (getN (updUp s i o) j).up = if j = i then o else (getN s j).up := by
  rw [getN_updUp]; by_cases h : j = i <;> simp [h]

theorem children_updChildren (s : Store) (i : Nat) (l : List Nat) (j : Nat) :
    (getN (updChildren s i l) j).children =
      if j = i then l else (getN s j).children := by
  rw [getN_updChildren]; by_cases h : j = i <;> simp [h]

theorem dist_updUp (s : Store) (i : Nat) (o : Option Nat) (j : Nat) :
    (getN (updUp s i o) j).dist = (getN s j).dist := by
  rw [getN_updUp]; by_cases h : j = i <;> simp [h]

theorem dist_updChildren (s : Store) (i : Nat) (l : List Nat) (j : Nat) :
    (getN (updChildren s i l) j).dist = (getN s j).dist := by
  rw [getN_updChildren]; by_cases h : j = i <;> simp [h]

theorem dist_updDist (s : Store) (i : Nat) (q : ℚ) (j : Nat) :
    (getN (updDist s i q) j).dist = if j = i then q else (getN s j).dist := by
  rw [getN_updDist]; by_cases h : j = i <;> simp [h]

theorem children_updDist (s : Store) (i : Nat) (q : ℚ) (j : Nat) :
    (getN (updDist s i q) j).children = (getN s j).children := by
  rw [getN_updDist]; by_cases h : j = i <;> simp [h]

theorem up_updDist (s : Store) (i : Nat) (q : ℚ) (j : Nat) :
    (getN (updDist s i q) j).up = (getN s j).up := by
  rw [getN_updDist]; by_cases h : j = i <;> simp [h]

theorem updName_shape (s : Store) (c : Nat) (n : String) (hc : c < s.length) :
    (updName s c n).length = s.length ∧
    (∀ j, (getN (updName s c n) j).up = (getN s j).up) ∧
    (∀ j, (getN (updName s c n) j).children = (getN s j).children) := by
  refine ⟨?_, ?_, ?_⟩
  · unfold updName; rw [length_setAt]; omega
  · intro j; rw [getN_updName]; by_cases hj : j = c <;> simp [hj]
  · intro j; rw [getN_updName]; by_cases hj : j = c <;> simp [hj]

theorem applyNum_dist_shape (s : Store) (c : Nat) (v : Option NumInput)
    (s2 : Store) (hc : c < s.length) (h : applyNum s c v updDist = some s2) :
    s2.length = s.length ∧ (∀ j, (getN s2 j).up = (getN s j).up) ∧
    (∀ j, (getN s2 j).children = (getN s j).children) := by
  rcases v with _ | d
  · simp only [applyNum, Option.some.injEq] at h
    subst h
    exact ⟨rfl, fun _ => rfl, fun _ => rfl⟩
  · rcases d with q | _
    · simp only [applyNum, toFloat, Option.some.injEq] at h
      subst h
      refine ⟨?_, ?_, ?_⟩
      · rw [length_updDist]; omega
      · intro j; exact up_updDist s c q j
      · intro j; exact children_updDist s c q j
    · exact Option.noConfusion (by simpa only [applyNum, toFloat] using h)

theorem applyNum_support_shape (s : Store) (c : Nat) (v : Option NumInput)
    (s2 : Store) (hc : c < s.length) (h : applyNum s c v updSupport = some s2) :
    s2.length = s.length ∧ (∀ j, (getN s2 j).up = (getN s j).up) ∧
    (∀ j, (getN s2 j).children = (getN s j).children) := by
  rcases v with _ | d
  · simp only [applyNum, Option.some.injEq] at h
    subst h
    exact ⟨rfl, fun _ => rfl, fun _ => rfl⟩
  · rcases d with q | _
    · simp only [applyNum, toFloat, Option.some.injEq] at h
      subst h
      refine ⟨?_, ?_, ?_⟩
      · unfold updSupport; rw [length_setAt]; omega
      · intro j; rw [getN_updSupport]; by_cases hj : j = c <;> simp [hj]
      · intro j; rw [getN_updSupport]; by_cases hj : j = c <;> simp [hj]
    · exact Option.noConfusion (by simpa only [applyNum, toFloat] using h)

theorem invB_attach_congr (sA sB : Store) (self c : Nat)
    (hlen : sA.length = sB.length)
    (hu : ∀ j, (getN sA j).up = (getN sB j).up)
    (hch : ∀ j, (getN sA j).children = (getN sB j).children)
    (hInv : InvB sB = true) (hself : self < sB.length) (hc : c < sB.length)
    (hupn : (getN sB c).up = none) :
    InvB (updUp (updChildren sA self ((getN sB self).children ++ [c]))
      c (some self)) = true := by
  have hcongr :
      InvB (updUp (updChildren sA self ((getN sB self).children ++ [c]))
        c (some self)) =
      InvB (updUp (updChildren sB self ((getN sB self).children ++ [c]))
        c (some self)) := by
    apply invB_congr
    · rw [length_updUp, length_updChildren, length_updUp, length_updChildren,
        hlen]
    · intro j
      rw [up_updUp, up_updUp, up_updChildren, up_updChildren]
      by_cases hj : j = c <;> simp [hj, hu]
    · intro j
      rw [children_updUp, children_updUp, children_updChildren,
        children_updChildren]
      by_cases hj : j = self <;> simp [hj, hch]
  rw [hcongr]
  exact invB_attach sB self c hInv hself hc hupn

theorem add_child_tail_cid (s1 : Store) (self cid : Nat)
    (d sup : Option NumInput) (s' : Store) (cid' : Nat)
    (hrun : add_child_tail s1 self cid d sup = some (s', cid')) :
    cid' = cid := by
  unfold add_child_tail at hrun
  split at hrun
  · exact Option.noConfusion hrun
  · split at hrun
    · exact Option.noConfusion hrun
    · simp only [Option.some.injEq, Prod.mk.injEq] at hrun
      exact hrun.2.symm

theorem add_child_tail_inv (sB s1 : Store) (self cid : Nat)
    (d sup : Option NumInput) (s' : Store) (cid' : Nat)
    (hBInv : InvB sB = true) (hBself : self < sB.length)
    (hBcid : cid < sB.length) (hBup : (getN sB cid).up = none)
    (hl1 : s1.length = sB.length)
    (hu1 : ∀ j, (getN s1 j).up = (getN sB j).up)
    (hc1 : ∀ j, (getN s1 j).children = (getN sB j).children)
    (hrun : add_child_tail s1 self cid d sup = some (s', cid')) :
    InvB s' = true := by
  unfold add_child_tail at hrun
  split at hrun
  · exact Option.noConfusion hrun
  · rename_i s2 hd2
    split at hrun
    · exact Option.noConfusion hrun
    · rename_i s3 hs3
      obtain ⟨hl2, hu2, hc2⟩ := applyNum_dist_shape s1 cid d s2 (by omega) hd2
      obtain ⟨hl3, hu3, hc3⟩ :=
        applyNum_support_shape s2 cid sup s3 (by omega) hs3
      simp only [Option.some.injEq, Prod.mk.injEq] at hrun
      obtain ⟨hs'eq, -⟩ := hrun
      subst hs'eq
      have hch3B : (getN s3 self).children = (getN sB self).children := by
        rw [hc3, hc2, hc1]
      rw [hch3B]
      exact invB_attach_congr s3 sB self cid (by omega)
        (fun j => by rw [hu3, hu2, hu1]) (fun j => by rw [hc3, hc2, hc1])
        hBInv hBself hBcid hBup

/-- C9 (amended): `add_child` preserves the parent/children invariant
provided the attached child is parentless (fresh, or detached); it sets
`child.up` and appends to `self.children` but performs no detachment from
a previous parent, so only the parentless case keeps the invariant. -/
theorem add_child_keeps_inv (s : Store) (self : Nat) (child : Option Nat)
    (nm : Option String) (d sup : Option NumInput) (s' : Store) (cid : Nat)
    (hInv : InvB s = true) (hself : self < s.length)
    (hchild : child = none ∨
      ∃ c, child = some c ∧ c < s.length ∧ (getN s c).up = none)
    (hrun : add_child s self child nm d sup = some (s', cid)) :
    InvB s' = true := by
  rcases hchild with rfl | ⟨c, rfl, hclt, hcup⟩
  · -- fresh child: base store is s ++ [defaultNode], child id s.length
    have hcid : cid = s.length :=
      add_child_tail_cid _ self s.length d sup s' cid hrun
    subst hcid
    have hBInv : InvB (s ++ [defaultNode]) = true := invB_append_default s hInv
    have hBlen : (s ++ [defaultNode]).length = s.length + 1 := by simp
    have hBup : (getN (s ++ [defaultNode]) s.length).up = none := by
      rw [getN_append_one, if_pos rfl]; rfl
    rcases nm with _ | n
    · exact add_child_tail_inv (s ++ [defaultNode]) (s ++ [defaultNode])
        self s.length d sup s' s.length hBInv (by omega) (by omega) hBup
        rfl (fun _ => rfl) (fun _ => rfl) hrun
    · obtain ⟨hnl, hnu, hnc⟩ :=
        updName_shape (s ++ [defaultNode]) s.length n (by omega)
      exact add_child_tail_inv (s ++ [defaultNode])
        (updName (s ++ [defaultNode]) s.length n)
        self s.length d sup s' s.length hBInv (by omega) (by omega) hBup
        (by rw [hnl, hBlen]) hnu hnc hrun
  · -- existing parentless child: base store is s, child id c
    have hcid : cid = c := add_child_tail_cid _ self c d sup s' cid hrun
    subst hcid
    rcases nm with _ | n
    · exact add_child_tail_inv s s self cid d sup s' cid hInv hself hclt hcup
        rfl (fun _ => rfl) (fun _ => rfl) hrun
    · obtain ⟨hnl, hnu, hnc⟩ := updName_shape s cid n hclt
      exact add_child_tail_inv s (updName s cid n) self cid d sup s' cid
        hInv hself hclt hcup hnl hnu hnc hrun

/-- C9 (counterexample): on a well-formed three-node store, attaching
node `2` (which already has parent `0`) to node `1` leaves the store
violating the invariant — node `0` still lists `2` as a child while
`2.up` is `1`. -/
theorem add_child_breaks_inv_on_reparent :
    InvB exStore3 = true ∧
    add_child exStore3 1 (some 2) none none none = some (exStore3bad, 2) ∧
    InvB exStore3bad = false ∧
    2 ∈ (getN exStore3bad 0).children ∧
    (getN exStore3bad 2).up = some 1 := by
  refine ⟨by decide, rfl, by decide, by decide, rfl⟩

/-- C9 (witness): the amended theorem applied to a concrete fresh-child
attachment. -/
theorem add_child_keeps_inv_witness :
    InvB exStore3 = true ∧ (2 : Nat) < exStore3.length ∧
    add_child exStore3 2 none none none none = some (exStore3w, 3) ∧
    InvB exStore3w = true :=
  ⟨by decide, by decide, rfl,
    add_child_keeps_inv exStore3 2 none none none none exStore3w 3
      (by decide) (by decide) (Or.inl rfl) rfl⟩

/-! ## Claim C7: `prune` with `keep` on the full leaf set is a no-op -/

/-- C7: pruning with `method="keep"` and a selector that resolves to
exactly the tree's current leaf set returns the empty removed-set and the
unchanged store. -/
theorem prune_keep_full_noop (s : Store) (root : Nat) (sel : Selector)
    (fuel : Nat)
    (h1 : (node_instances s root sel fuel).all
      (fun i => decide (i ∈ get_leaves s root fuel)) = true)
    (h2 : (get_leaves s root fuel).all
      (fun i => decide (i ∈ node_instances s root sel fuel)) = true) :
    prune s root sel "keep" fuel = some (s, []) := by
  unfold prune
  rw [if_pos h1]
  have hne : ("keep" : String) = "crop" ↔ False := by simp
  have hfil : (get_leaves s root fuel).filter
      (fun i => decide (i ∉ node_instances s root sel fuel)) = [] := by
    rw [List.filter_eq_nil_iff]
    intro i hi
    rw [List.all_eq_true] at h2
    have := h2 i hi
    simp only [decide_eq_true_eq] at this ⊢
    exact fun hn => hn this
  simp only [hne, if_false, if_pos rfl, hfil]
  rfl

/-- C7 (witness): the theorem applied to the concrete three-node store
with its exact leaf set `{1, 2}` as the selector. -/
theorem prune_keep_full_noop_witness :
    (node_instances exStore3 0 [Sum.inr 1, Sum.inr 2] 5).all
      (fun i => decide (i ∈ get_leaves exStore3 0 5)) = true ∧
    (get_leaves exStore3 0 5).all
      (fun i => decide (i ∈ node_instances exStore3 0 [Sum.inr 1, Sum.inr 2] 5)) = true ∧
    prune exStore3 0 [Sum.inr 1, Sum.inr 2] "keep" 5 = some (exStore3, []) :=
  ⟨by decide, by decide,
    prune_keep_full_noop exStore3 0 [Sum.inr 1, Sum.inr 2] 5
      (by decide) (by decide)⟩

/-! ## Claim C6: the prune cascade and single-child nodes -/

/-- C6 (amended): `delete()` on a parentless node is a no-op, and the
per-leaf cascade of `prune` only ever stops at `None` (after deleting up
to and including the root) or at a node, other than the deleted leaf,
that does not have exactly one child — so every non-root ancestor the
deletions leave with a single child is itself removed by `delete()`,
while a root left with a single child survives (its `delete()` does
nothing). -/
theorem cascade_stop_property :
    (∀ s i, (getN s i).up = none → delete s i = some s) ∧
    (∀ n fuel s cur s' c, cascadeLoop n fuel s cur = some (s', c) →
      c = none ∨
      ∃ cc, c = some cc ∧ cc ≠ n ∧ (getN s' cc).children.length ≠ 1) := by
  constructor
  · intro s i h
    unfold delete
    rw [h]
  · intro n fuel
    induction fuel with
    | zero => intro s cur s' c hrun; exact Option.noConfusion hrun
    | succ fuel ih =>
      intro s cur s' c hrun
      unfold cascadeLoop at hrun
      split at hrun
      · simp only [Option.some.injEq, Prod.mk.injEq] at hrun
        exact Or.inl hrun.2.symm
      · rename_i cc
        split at hrun
        · split at hrun
          · exact Option.noConfusion hrun
          · rename_i s2 hdel
            exact ih s2 ((getN s cc).up) s' c hrun
        · rename_i hcond
          push_neg at hcond
          simp only [Option.some.injEq, Prod.mk.injEq] at hrun
          obtain ⟨hs, hc⟩ := hrun
          subst hs
          exact Or.inr ⟨cc, hc.symm, hcond.1, hcond.2⟩

/-- C6 (counterexample): pruning `exStore5` with `keep` on leaf `A`
succeeds, yet afterwards the pruned root — reachable from itself — has
exactly one child: `delete()` on the root is a no-op, so the cleanup
never removes a unary root. -/
theorem prune_leaves_unary_root :
    (prune exStore5 0 [Sum.inr 1] "keep" 10).isSome = true ∧
    (getN exStore5p 0).children = [1] ∧
    (getN exStore5p 0).up = none := by
  refine ⟨rfl, rfl, rfl⟩

/-! ## Claim C5: `set_outgroup` -/

theorem sortIds_pair (a b : Nat) :
    sortIds [a, b] = if a ≤ b then [a, b] else [b, a] := by
  simp [sortIds, insSorted]

theorem set_outgroup_self_noop (s : Store) (x : Nat) (fuel : Nat) :
    set_outgroup s x x fuel = some s := by
  unfold set_outgroup
  rw [if_pos rfl]

theorem set_outgroup_final_spec (s1 : Store) (self og og2 : Nat) :
    (getN (set_outgroup_final s1 self og og2) self).children =
      sortIds [og, og2] ∧
    (getN (set_outgroup_final s1 self og og2) og).dist =
      ((getN s1 og2).dist + (getN s1 og).dist) / 2 ∧
    (getN (set_outgroup_final s1 self og og2) og2).dist =
      ((getN s1 og2).dist + (getN s1 og).dist) / 2 ∧
    (getN (set_outgroup_final s1 self og og2) og).up = some self ∧
    (getN (set_outgroup_final s1 self og og2) og2).up = some self := by
  unfold set_outgroup_final
  have hd3 : ∀ j,
      (getN (updChildren (updUp (updUp s1 og (some self)) og2 (some self))
        self [og, og2]) j).dist = (getN s1 j).dist := by
    intro j
    rw [dist_updChildren, dist_updUp, dist_updUp]
  have hch3 :
      (getN (updChildren (updUp (updUp s1 og (some self)) og2 (some self))
        self [og, og2]) self).children = [og, og2] := by
    rw [children_updChildren, if_pos rfl]
  have hup3 : ∀ j,
      (getN (updChildren (updUp (updUp s1 og (some self)) og2 (some self))
        self [og, og2]) j).up =
        if j = og2 then some self else if j = og then some self
        else (getN s1 j).up := by
    intro j
    rw [up_updChildren, up_updUp, up_updUp]
  refine ⟨?_, ?_, ?_, ?_, ?_⟩
  · rw [children_updChildren, if_pos rfl, children_updDist, children_updDist,
      hch3]
  · rw [dist_updChildren, dist_updDist]
    by_cases h : og = og2
    · rw [if_pos h, hd3, hd3]
    · rw [if_neg h, dist_updDist, if_pos rfl, hd3, hd3]
  · rw [dist_updChildren, dist_updDist, if_pos rfl, hd3, hd3]
  · rw [up_updChildren, up_updDist, up_updDist, hup3]
    by_cases h : og = og2 <;> simp [h]
  · rw [up_updChildren, up_updDist, up_updDist, hup3, if_pos rfl]

/-- C5 (amended): `set_outgroup(outgroup)` is a no-op when
`outgroup is self`; otherwise, whenever the surgery phase completes
without error (which requires `outgroup` to sit strictly below `self` and
`self` to keep at least one child after the down-branch is removed), the
call succeeds, and afterwards `self` has exactly the two children
`outgroup` and `outgroup2` (the rebuilt sibling), `outgroup` among them,
with equal `dist` values, each half the sum of the `dist` values the two
carried when they met at the new root. -/
theorem set_outgroup_post (s : Store) (self og : Nat) (fuel : Nat)
    (s1 : Store) (og2 : Nat) (hne : self ≠ og)
    (hmain : set_outgroup_main s self og fuel = some (s1, og2)) :
    (∀ (sx : Store) (x fx : Nat), set_outgroup sx x x fx = some sx) ∧
    set_outgroup s self og fuel =
      some (set_outgroup_final s1 self og og2) ∧
    (getN (set_outgroup_final s1 self og og2) self).children =
      sortIds [og, og2] ∧
    (getN (set_outgroup_final s1 self og og2) self).children.length = 2 ∧
    og ∈ (getN (set_outgroup_final s1 self og og2) self).children ∧
    og2 ∈ (getN (set_outgroup_final s1 self og og2) self).children ∧
    (getN (set_outgroup_final s1 self og og2) og).dist =
      ((getN s1 og2).dist + (getN s1 og).dist) / 2 ∧
    (getN (set_outgroup_final s1 self og og2) og2).dist =
      ((getN s1 og2).dist + (getN s1 og).dist) / 2 ∧
    (getN (set_outgroup_final s1 self og og2) og).dist =
      (getN (set_outgroup_final s1 self og og2) og2).dist ∧
    (getN (set_outgroup_final s1 self og og2) og).up = some self ∧
    (getN (set_outgroup_final s1 self og og2) og2).up = some self := by
  obtain ⟨hch, hd1, hd2, hu1, hu2⟩ := set_outgroup_final_spec s1 self og og2
  refine ⟨fun sx x fx => set_outgroup_self_noop sx x fx, ?_, hch, ?_, ?_, ?_,
    hd1, hd2, hd1.trans hd2.symm, hu1, hu2⟩
  · unfold set_outgroup
    rw [if_neg hne, hmain]
  · rw [hch, sortIds_pair]
    split <;> rfl
  · rw [hch, sortIds_pair]
    split <;> simp
  · rw [hch, sortIds_pair]
    split <;> simp

/-- C5 (counterexample): with a root that has a single child, rerooting
at the grandchild — strictly below the root, and distinct from it —
raises (`self.children[0]` on an emptied list) instead of producing a
two-child root: the claim's unconditional postcondition fails. -/
theorem set_outgroup_crashes_on_unary_root :
    set_outgroup exStoreChain 0 2 10 = none ∧
    (getN exStoreChain 2).up = some 1 ∧
    (getN exStoreChain 1).up = some 0 ∧
    (0 : Nat) ≠ 2 := by
  refine ⟨rfl, rfl, rfl, by decide⟩

/-- C5 (witness): the amended theorem applied to rerooting `exStore3` at
its first child. -/
theorem set_outgroup_post_witness :
    (0 : Nat) ≠ 1 ∧
    set_outgroup_main exStore3 0 1 10 = some (exStore3main.1, 2) ∧
    ((∀ (sx : Store) (x fx : Nat), set_outgroup sx x x fx = some sx) ∧
    set_outgroup exStore3 0 1 10 =
      some (set_outgroup_final exStore3main.1 0 1 2) ∧
    (getN (set_outgroup_final exStore3main.1 0 1 2) 0).children =
      sortIds [1, 2] ∧
    (getN (set_outgroup_final exStore3main.1 0 1 2) 0).children.length = 2 ∧
    1 ∈ (getN (set_outgroup_final exStore3main.1 0 1 2) 0).children ∧
    2 ∈ (getN (set_outgroup_final exStore3main.1 0 1 2) 0).children ∧
    (getN (set_outgroup_final exStore3main.1 0 1 2) 1).dist =
      ((getN exStore3main.1 2).dist + (getN exStore3main.1 1).dist) / 2 ∧
    (getN (set_outgroup_final exStore3main.1 0 1 2) 2).dist =
      ((getN exStore3main.1 2).dist + (getN exStore3main.1 1).dist) / 2 ∧
    (getN (set_outgroup_final exStore3main.1 0 1 2) 1).dist =
      (getN (set_outgroup_final exStore3main.1 0 1 2) 2).dist ∧
    (getN (set_outgroup_final exStore3main.1 0 1 2) 1).up = some 0 ∧
    (getN (set_outgroup_final exStore3main.1 0 1 2) 2).up = some 0) :=
  ⟨by decide, rfl,
    set_outgroup_post exStore3 0 1 10 exStore3main.1 2 (by decide) rfl⟩

/-! ## Claim C3: `traverse("preorder")` order -/

/-- C3 (divergence witness): on `((A,B)X,C)R`, the `"preorder"` traversal
emits `R, X, C, A, B` — breadth-first order, because
`tovisit.pop(0)` takes from the front of the list while
`tovisit.extend(...)` appends at the back — whereas genuine preorder
(each child's whole subtree before the next sibling) is
`R, X, A, B, C`. -/
theorem traverse_preorder_is_breadth_first :
    (traverse exTree "preorder").map (fun l => l.map TreeNode.name) =
      some ["R", "X", "C", "A", "B"] ∧
    (preorderList exTree).map TreeNode.name = ["R", "X", "A", "B", "C"] ∧
    (["R", "X", "C", "A", "B"] : List String) ≠ ["R", "X", "A", "B", "C"] := by
  refine ⟨rfl, rfl, by decide⟩

/-! ## Claim C4: `get_farthest_leaf` -/

theorem tsizeL_mem_le (cs : List TreeNode) (c : TreeNode) (h : c ∈ cs) :
    tsize c ≤ tsizeL cs := by
  induction cs with
  | nil => cases h
  | cons c0 cs ih =>
    rw [tsizeL]
    rcases List.mem_cons.mp h with rfl | h
    · omega
    · have := ih h
      omega

theorem tsize_child_lt (d : ℚ) (nm : String) (co : Bool)
    (ch : List TreeNode) (c : TreeNode) (h : c ∈ ch) :
    tsize c < tsize (.node d nm co ch) := by
  rw [tsize]
  have := tsizeL_mem_le ch c h
  omega

theorem tsize_pos (t : TreeNode) : 1 ≤ tsize t := by
  cases t
  rw [tsize]
  omega

theorem nonnegBL_mem (cs : List TreeNode) (c : TreeNode)
    (hnn : nonnegBL cs = true) (h : c ∈ cs) : nonnegB c = true := by
  induction cs with
  | nil => cases h
  | cons c0 cs ih =>
    rw [nonnegBL, Bool.and_eq_true] at hnn
    rcases List.mem_cons.mp h with rfl | h
    · exact hnn.1
    · exact ih hnn.2 h

theorem nonnegBL_append (xs ys : List TreeNode) :
    nonnegBL (xs ++ ys) = (nonnegBL xs && nonnegBL ys) := by
  induction xs with
  | nil => simp [nonnegBL]
  | cons x xs ih =>
    simp [nonnegBL, ih, Bool.and_assoc]

theorem edgeW_nonneg (topo : Bool) (c : TreeNode)
    (h : nonnegB c = true) : 0 ≤ edgeW topo c := by
  rcases topo with _ | _
  · cases c with
    | node d nm co ch =>
      rw [nonnegB, Bool.and_eq_true, decide_eq_true_eq] at h
      simpa [edgeW, TreeNode.dist] using h.1
  · simp [edgeW]

theorem gfl_leaf (topo : Bool) (t : TreeNode) (h : leafB t = true) :
    get_farthest_leaf topo t = (some [], 0) := by
  cases t with
  | node d nm co ch =>
    rw [leafB] at h
    rw [get_farthest_leaf]
    simp only [TreeNode.collapsed, TreeNode.children] at h
    rw [if_pos h]

theorem gfl_node (topo : Bool) (d : ℚ) (nm : String) (co : Bool)
    (ch : List TreeNode) (h : leafB (.node d nm co ch) = false) :
    get_farthest_leaf topo (.node d nm co ch) = gflKids topo ch 0 none 0 := by
  rw [leafB] at h
  simp only [TreeNode.collapsed, TreeNode.children] at h
  rw [get_farthest_leaf, if_neg (by rw [h]; exact Bool.false_ne_true)]

theorem gflKids_append (topo : Bool) (cs : List TreeNode) (c : TreeNode) :
    ∀ (i : Nat) (mn : Option NPath) (md : ℚ),
    gflKids topo (cs ++ [c]) i mn md =
      (if (gflKids topo cs i mn md).2 ≤
          (get_farthest_leaf topo c).2 + edgeW topo c then
        ((get_farthest_leaf topo c).1.map (fun q => (i + cs.length) :: q),
          (get_farthest_leaf topo c).2 + edgeW topo c)
      else gflKids topo cs i mn md) := by
  induction cs with
  | nil =>
    intro i mn md
    simp only [List.nil_append, List.length_nil, Nat.add_zero]
    rw [gflKids, gflKids]
    rfl
  | cons c0 cs ih =>
    intro i mn md
    simp only [List.cons_append]
    rw [gflKids, gflKids]
    simp only [List.length_cons]
    by_cases h0 : md ≤ (get_farthest_leaf topo c0).2 + edgeW topo c0
    · rw [if_pos h0, if_pos h0, ih]
      have harith : i + 1 + cs.length = i + (cs.length + 1) := by omega
      rw [harith]
    · rw [if_neg h0, if_neg h0, ih]
      have harith : i + 1 + cs.length = i + (cs.length + 1) := by omega
      rw [harith]

theorem getElem?_append_singleton (cs : List TreeNode) (c ci : TreeNode)
    (i : Nat) (h : (cs ++ [c])[i]? = some ci) :
    (i < cs.length ∧ cs[i]? = some ci) ∨ (i = cs.length ∧ ci = c) := by
  rcases lt_trichotomy i cs.length with hi | hi | hi
  · left
    refine ⟨hi, ?_⟩
    rwa [List.getElem?_append, if_pos hi] at h
  · right
    subst hi
    refine ⟨rfl, ?_⟩
    rw [List.getElem?_append_right le_rfl] at h
    simp at h
    exact h.symm
  · rw [List.getElem?_append_right (by omega)] at h
    rw [List.getElem?_eq_none (by simp; omega)] at h
    cases h

theorem gflKids_spec (topo : Bool) (cs : List TreeNode)
    (hch : ∀ c ∈ cs, nonnegB c = true → GFLspec topo c)
    (hnn : nonnegBL cs = true) (hne : cs ≠ []) :
    ∃ (j : Nat) (qt : NPath) (c : TreeNode) (w : ℚ),
      gflKids topo cs 0 none 0 = (some (j :: qt), w) ∧
      j < cs.length ∧ cs[j]? = some c ∧ visibleLeafB c qt = true ∧
      w = edgeW topo c + pathWeight topo c qt ∧ 0 ≤ w ∧
      (∀ (i : Nat) (ci : TreeNode) (r : NPath), cs[i]? = some ci →
        visibleLeafB ci r = true →
        edgeW topo ci + pathWeight topo ci r ≤ w) ∧
      (∀ (i : Nat) (ci : TreeNode) (r : NPath), cs[i]? = some ci →
        visibleLeafB ci r = true →
        edgeW topo ci + pathWeight topo ci r = w →
        i < j ∨ (i = j ∧ (r = qt ∨ List.Lex (· < ·) r qt))) := by
  induction cs using List.reverseRecOn with
  | nil => exact absurd rfl hne
  | append_singleton cs c ih =>
    have hnn2 := hnn
    rw [nonnegBL_append, Bool.and_eq_true] at hnn2
    have hnnc : nonnegB c = true := by
      have h := hnn2.2
      rw [nonnegBL, Bool.and_eq_true] at h
      exact h.1
    obtain ⟨qc, hgc, hwc0, hvlc, hmaxc, htiec⟩ :=
      hch c (List.mem_append_right cs (List.mem_singleton_self c)) hnnc
    have hedge : 0 ≤ edgeW topo c := edgeW_nonneg topo c hnnc
    rw [gflKids_append, hgc]
    rcases eq_or_ne cs [] with rfl | hcs
    · -- only one child: it always wins over the initial (None, 0.0)
      have hcond : ((gflKids topo [] 0 none 0).2 : ℚ) ≤
          ((some qc, pathWeight topo c qc) : Option NPath × ℚ).2 +
            edgeW topo c := by
        rw [gflKids]
        exact add_nonneg hwc0 hedge
      rw [if_pos hcond]
      refine ⟨0, qc, c, pathWeight topo c qc + edgeW topo c, by simp, by simp,
        rfl, hvlc, add_comm _ _, add_nonneg hwc0 hedge, ?_, ?_⟩
      · intro i ci r hi hvr
        rcases getElem?_append_singleton [] c ci i hi with ⟨hlt, _⟩ | ⟨rfl, hci⟩
        · simp at hlt
        · rw [hci] at hvr ⊢
          have h := hmaxc r hvr
          rw [add_comm (edgeW topo c)]
          exact add_le_add_right h _
      · intro i ci r hi hvr hw
        rcases getElem?_append_singleton [] c ci i hi with ⟨hlt, _⟩ | ⟨rfl, hci⟩
        · simp at hlt
        · rw [hci] at hvr hw
          right
          refine ⟨rfl, ?_⟩
          apply htiec r hvr
          have hw' : pathWeight topo c r + edgeW topo c =
              pathWeight topo c qc + edgeW topo c := by
            rw [add_comm (pathWeight topo c r)]
            exact hw
          exact add_right_cancel hw'
    · -- at least one earlier child: compare with the accumulated best
      obtain ⟨j, qt, cj, w, heq, hjlt, hjget, hvlj, hwj, hw0, hmax, htie⟩ :=
        ih (fun c0 hc0 => hch c0 (List.mem_append_left [c] hc0))
          hnn2.1 hcs
      rw [heq]
      by_cases hcond : w ≤ pathWeight topo c qc + edgeW topo c
      · rw [if_pos hcond]
        refine ⟨cs.length, qc, c, pathWeight topo c qc + edgeW topo c,
          ?_, ?_, ?_, hvlc, add_comm _ _,
          add_nonneg hwc0 hedge, ?_, ?_⟩
        · simp
        · simp
        · rw [List.getElem?_append_right le_rfl]
          simp
        · intro i ci r hi hvr
          rcases getElem?_append_singleton cs c ci i hi with
            ⟨hlt, hget⟩ | ⟨rfl, hci⟩
          · exact le_trans (hmax i ci r hget hvr) hcond
          · rw [hci] at hvr ⊢
            have h := hmaxc r hvr
            rw [add_comm (edgeW topo c)]
            exact add_le_add_right h _
        · intro i ci r hi hvr hw'
          rcases getElem?_append_singleton cs c ci i hi with
            ⟨hlt, hget⟩ | ⟨rfl, hci⟩
          · exact Or.inl hlt
          · rw [hci] at hvr hw'
            right
            refine ⟨rfl, ?_⟩
            apply htiec r hvr
            have hw'' : pathWeight topo c r + edgeW topo c =
                pathWeight topo c qc + edgeW topo c := by
              rw [add_comm (pathWeight topo c r)]
              exact hw'
            exact add_right_cancel hw''
      · rw [if_neg hcond]
        push_neg at hcond
        refine ⟨j, qt, cj, w, rfl, ?_, ?_, hvlj, hwj, hw0, ?_, ?_⟩
        · rw [List.length_append]
          omega
        · rw [List.getElem?_append, if_pos hjlt]
          exact hjget
        · intro i ci r hi hvr
          rcases getElem?_append_singleton cs c ci i hi with
            ⟨hlt, hget⟩ | ⟨rfl, hci⟩
          · exact hmax i ci r hget hvr
          · rw [hci] at hvr ⊢
            have h := hmaxc r hvr
            have h2 : edgeW topo c + pathWeight topo c r ≤
                pathWeight topo c qc + edgeW topo c := by
              rw [add_comm (edgeW topo c)]
              exact add_le_add_right h _
            exact le_of_lt (lt_of_le_of_lt h2 hcond)
        · intro i ci r hi hvr hw'
          rcases getElem?_append_singleton cs c ci i hi with
            ⟨hlt, hget⟩ | ⟨rfl, hci⟩
          · exact htie i ci r hget hvr hw'
          · rw [hci] at hvr hw'
            exfalso
            have h := hmaxc r hvr
            have h2 : edgeW topo c + pathWeight topo c r ≤
                pathWeight topo c qc + edgeW topo c := by
              rw [add_comm (edgeW topo c)]
              exact add_le_add_right h _
            rw [hw'] at h2
            exact absurd hcond (not_lt.mpr h2)

theorem gfl_spec_bounded (topo : Bool) :
    ∀ (n : Nat) (t : TreeNode), tsize t ≤ n → nonnegB t = true →
      GFLspec topo t := by
  intro n
  induction n with
  | zero =>
    intro t hle
    have := tsize_pos t
    omega
  | succ n ih =>
    intro t hle hnn
    cases t with
    | node d nm co ch =>
      by_cases hleaf : (co || ch.isEmpty) = true
      · -- a leaf returns (self, 0.0); the only reachable leaf is []
        have hlf : leafB (.node d nm co ch) = true := hleaf
        refine ⟨[], ?_, le_refl 0, hlf, ?_, ?_⟩
        · rw [gfl_leaf topo _ hlf]
          rfl
        · intro r hvr
          cases r with
          | nil => exact le_refl _
          | cons j q =>
            rw [visibleLeafB, hlf] at hvr
            simp at hvr
        · intro r hvr _
          cases r with
          | nil => exact Or.inl rfl
          | cons j q =>
            rw [visibleLeafB, hlf] at hvr
            simp at hvr
      · -- an inner node scans its children
        have hlf : leafB (.node d nm co ch) = false := by
          rw [leafB]
          simp only [TreeNode.collapsed, TreeNode.children]
          exact Bool.not_eq_true _ ▸ (by simpa using hleaf)
        have hnnch : nonnegBL ch = true := by
          rw [nonnegB, Bool.and_eq_true] at hnn
          exact hnn.2
        have hne : ch ≠ [] := by
          intro hch0
          subst hch0
          simp at hleaf
        obtain ⟨j, qt, cj, w, heq, hjlt, hjget, hvlj, hwj, hw0, hmax, htie⟩ :=
          gflKids_spec topo ch
            (fun c hc hnnc => ih c (by
              have := tsize_child_lt d nm co ch c hc
              omega) hnnc)
            hnnch hne
        have hpw : pathWeight topo (.node d nm co ch) (j :: qt) =
            edgeW topo cj + pathWeight topo cj qt := by
          rw [pathWeight]
          simp only [TreeNode.children]
          rw [hjget]
        refine ⟨j :: qt, ?_, ?_, ?_, ?_, ?_⟩
        · rw [gfl_node topo d nm co ch hlf, heq, hpw, ← hwj]
        · rw [hpw, ← hwj]
          exact hw0
        · rw [visibleLeafB, hlf]
          simp only [TreeNode.children]
          rw [hjget]
          simp [hvlj]
        · intro r hvr
          cases r with
          | nil =>
            rw [visibleLeafB, hlf] at hvr
            simp at hvr
          | cons j' q' =>
            rw [visibleLeafB, hlf] at hvr
            simp only [TreeNode.children, Bool.not_false, Bool.true_and] at hvr
            rcases hget : ch[j']? with _ | ci
            · rw [hget] at hvr
              simp at hvr
            · rw [hget] at hvr
              have hpw' : pathWeight topo (.node d nm co ch) (j' :: q') =
                  edgeW topo ci + pathWeight topo ci q' := by
                rw [pathWeight]
                simp only [TreeNode.children]
                rw [hget]
              rw [hpw', hpw, ← hwj]
              exact hmax j' ci q' hget hvr
        · intro r hvr hweq
          cases r with
          | nil =>
            rw [visibleLeafB, hlf] at hvr
            simp at hvr
          | cons j' q' =>
            rw [visibleLeafB, hlf] at hvr
            simp only [TreeNode.children, Bool.not_false, Bool.true_and] at hvr
            rcases hget : ch[j']? with _ | ci
            · rw [hget] at hvr
              simp at hvr
            · rw [hget] at hvr
              have hpw' : pathWeight topo (.node d nm co ch) (j' :: q') =
                  edgeW topo ci + pathWeight topo ci q' := by
                rw [pathWeight]
                simp only [TreeNode.children]
                rw [hget]
              rw [hpw', hpw, ← hwj] at hweq
              rcases htie j' ci q' hget hvr hweq with hlt | ⟨rfl, hq⟩
              · exact Or.inr (List.Lex.rel hlt)
              · rcases hq with rfl | hlex
                · exact Or.inl rfl
                · exact Or.inr (List.Lex.cons hlex)

/-- C4 (amended): over non-negative branch lengths, `get_farthest_leaf`
returns a reachable leaf of the subtree together with its summed edge
weight (edge counts when `topology_only`), the weight is maximal among
all reachable leaves, a tying leaf is the returned one or precedes it in
children order (the `>=` comparison makes the *last* maximizer win), and
a leaf argument yields `(self, 0.0)`. -/
theorem get_farthest_leaf_spec (topo : Bool) (t : TreeNode)
    (hnn : nonnegB t = true) :
    GFLspec topo t ∧
    (leafB t = true → get_farthest_leaf topo t = (some [], 0)) :=
  ⟨gfl_spec_bounded topo (tsize t) t le_rfl hnn, gfl_leaf topo t⟩

/-- C4 (witness): the amended theorem applied to the concrete two-leaf
tie tree. -/
theorem get_farthest_leaf_spec_witness :
    nonnegB exTie = true ∧
    (GFLspec false exTie ∧
      (leafB exTie = true → get_farthest_leaf false exTie = (some [], 0))) :=
  ⟨by decide, get_farthest_leaf_spec false exTie (by decide)⟩

/-- C4 (counterexample): on the two-leaf tie tree both leaves realise the
maximal weighted distance `1`, yet `get_farthest_leaf` returns the path
`[1]` of the *second* child, not the first-encountered maximizer `[0]` —
the `d >= max_dist` update lets later children overwrite ties. -/
theorem get_farthest_leaf_tie_last :
    get_farthest_leaf false exTie = (some [1], 1) ∧
    visibleLeafB exTie [0] = true ∧
    pathWeight false exTie [0] = 1 ∧
    pathWeight false exTie [1] = 1 ∧
    (some [1] : Option NPath) ≠ some [0] := by
  refine ⟨?_, by decide, ?_, ?_, by decide⟩
  · rw [exTie, get_farthest_leaf]
    norm_num [gflKids, get_farthest_leaf, edgeW, TreeNode.dist,
      TreeNode.children]
  · norm_num [exTie, pathWeight, TreeNode.children, edgeW, TreeNode.dist]
  · norm_num [exTie, pathWeight, TreeNode.children, edgeW, TreeNode.dist]

/-! ## Claims C1 and C2: `get_common_ancestor` and `get_distance` -/

theorem subtreeAt_append (p : NPath) : ∀ (t : TreeNode) (q : NPath),
    subtreeAt t (p ++ q) = (subtreeAt t p).bind (fun u => subtreeAt u q) := by
  induction p with
  | nil =>
    intro t q
    simp [subtreeAt]
  | cons i p ih =>
    intro t q
    rw [List.cons_append, subtreeAt]
    rcases hg : t.children[i]? with _ | c
    · rw [subtreeAt, hg]
      rfl
    · rw [subtreeAt, hg]
      exact ih c q

theorem valid_of_prefix (t : TreeNode) (c x : NPath) (hpre : c <+: x)
    (hv : (subtreeAt t x).isSome = true) :
    (subtreeAt t c).isSome = true := by
  obtain ⟨q, rfl⟩ := hpre
  rw [subtreeAt_append] at hv
  rcases hc : subtreeAt t c with _ | u
  · rw [hc] at hv
    simp at hv
  · rfl

theorem mem_allPathsL (x : NPath) : ∀ (cs : List TreeNode) (i : Nat),
    x ∈ allPathsL cs i ↔
      ∃ (j : Nat) (q : NPath) (c : TreeNode),
        x = (i + j) :: q ∧ cs[j]? = some c ∧ q ∈ allPaths c := by
  intro cs
  induction cs with
  | nil =>
    intro i
    rw [allPathsL]
    simp
  | cons c0 cs ih =>
    intro i
    rw [allPathsL, List.mem_append, List.mem_map, ih (i + 1)]
    constructor
    · rintro (⟨q, hq, rfl⟩ | ⟨j, q, c, rfl, hget, hq⟩)
      · refine ⟨0, q, c0, by rw [Nat.add_zero], by simp, hq⟩
      · refine ⟨j + 1, q, c, ?_, by simpa using hget, hq⟩
        have h : i + (j + 1) = i + 1 + j := by omega
        rw [h]
    · rintro ⟨j, q, c, rfl, hget, hq⟩
      cases j with
      | zero =>
        left
        have hc : c0 = c := by simpa using hget
        subst hc
        exact ⟨q, hq, by rw [Nat.add_zero]⟩
      | succ j =>
        right
        refine ⟨j, q, c, ?_, by simpa using hget, hq⟩
        have h : i + (j + 1) = i + 1 + j := by omega
        rw [h]

theorem mem_allPaths (p : NPath) : ∀ (t : TreeNode),
    p ∈ allPaths t ↔ (subtreeAt t p).isSome = true := by
  induction p with
  | nil =>
    intro t
    cases t with
    | node d nm co ch =>
      rw [allPaths]
      simp [subtreeAt]
  | cons j q ih =>
    intro t
    cases t with
    | node d nm co ch =>
      rw [allPaths]
      constructor
      · intro h
        rcases List.mem_cons.mp h with h0 | h1
        · exact absurd h0 (by simp)
        · rw [mem_allPathsL] at h1
          obtain ⟨j', q', c, heq, hget, hq⟩ := h1
          rw [Nat.zero_add] at heq
          injection heq with h1 h2
          subst h1
          subst h2
          rw [subtreeAt]
          simp only [TreeNode.children]
          rw [hget]
          exact (ih c).mp hq
      · intro h
        rw [subtreeAt] at h
        simp only [TreeNode.children] at h
        rcases hget : ch[j]? with _ | c
        · rw [hget] at h
          simp at h
        · rw [hget] at h
          apply List.mem_cons_of_mem
          rw [mem_allPathsL]
          exact ⟨j, q, c, by rw [Nat.zero_add], hget, (ih c).mpr h⟩

theorem mem_subtreePaths (t : TreeNode) (c x : NPath) :
    x ∈ subtreePaths t c ↔ (subtreeAt t x).isSome = true ∧ c <+: x := by
  unfold subtreePaths
  rcases hc : subtreeAt t c with _ | u
  · simp only [List.not_mem_nil, false_iff]
    rintro ⟨hv, hpre⟩
    have hvc := valid_of_prefix t c x hpre hv
    rw [hc] at hvc
    simp at hvc
  · rw [List.mem_map]
    constructor
    · rintro ⟨q, hq, rfl⟩
      rw [mem_allPaths] at hq
      constructor
      · rw [subtreeAt_append, hc]
        exact hq
      · exact ⟨q, rfl⟩
    · rintro ⟨hv, ⟨q, rfl⟩⟩
      refine ⟨q, ?_, rfl⟩
      rw [mem_allPaths]
      rw [subtreeAt_append, hc] at hv
      exact hv

theorem getElem?_isSome_iff (l : List TreeNode) (n : Nat) :
    n < l.length ↔ l[n]?.isSome = true := by
  constructor
  · intro h
    rw [List.getElem?_eq_getElem h]
    rfl
  · intro h
    by_contra hn
    rw [List.getElem?_eq_none (by omega)] at h
    simp at h

theorem childCount_iff (t : TreeNode) (cur : NPath) (j : Nat) :
    j < childCount t cur ↔ (subtreeAt t (cur ++ [j])).isSome = true := by
  unfold childCount
  rw [subtreeAt_append]
  rcases hc : subtreeAt t cur with _ | u
  · simp
  · simp only [Option.some_bind]
    rw [subtreeAt]
    rcases hg : u.children[j]? with _ | c
    · show j < u.children.length ↔ (none : Option TreeNode).isSome = true
      simp only [Option.isSome_none, Bool.false_eq_true, iff_false]
      intro hlt
      rw [getElem?_isSome_iff, hg] at hlt
      simp at hlt
    · show j < u.children.length ↔ (some c).isSome = true
      simp only [Option.isSome_some, iff_true]
      rw [getElem?_isSome_iff, hg]
      rfl

theorem prefix_cons_cases (c x : NPath) (h : c <+: x) :
    x = c ∨ ∃ j, c ++ [j] <+: x := by
  obtain ⟨t0, rfl⟩ := h
  cases t0 with
  | nil => exact Or.inl (by simp)
  | cons j t' =>
    right
    exact ⟨j, ⟨t', by simp⟩⟩

theorem append_singleton_ne (c : NPath) (j : Nat) : c ++ [j] ≠ c := by
  intro h
  have hlen := congrArg List.length h
  simp at hlen

theorem mem_newNodesAt (t : TreeNode) (cur pn x : NPath) :
    x ∈ newNodesAt t cur pn ↔
      (∃ j, j < childCount t cur ∧ cur ++ [j] ≠ pn ∧
        x ∈ subtreePaths t (cur ++ [j])) ∨ x = cur := by
  unfold newNodesAt
  rw [List.mem_append, List.mem_flatMap]
  simp only [List.mem_filter, List.mem_range, List.mem_singleton,
    decide_eq_true_eq]
  constructor
  · rintro (⟨j, ⟨hj, hne⟩, hx⟩ | hx)
    · exact Or.inl ⟨j, hj, hne, hx⟩
    · exact Or.inr hx
  · rintro (⟨j, hj, hne, hx⟩ | hx)
    · exact Or.inl ⟨j, ⟨hj, hne⟩, hx⟩
    · exact Or.inr hx

theorem below_init (t : TreeNode) (a : NPath)
    (ha : (subtreeAt t a).isSome = true) :
    ∀ x, x ∈ [a] ++ newNodesAt t a a ↔ x = a ∨ x ∈ subtreePaths t a := by
  intro x
  rw [List.mem_append, List.mem_singleton, mem_newNodesAt]
  constructor
  · rintro (rfl | ⟨j, hj, hne, hx⟩ | rfl)
    · exact Or.inl rfl
    · right
      rw [mem_subtreePaths] at hx ⊢
      exact ⟨hx.1, (List.prefix_append a [j]).trans hx.2⟩
    · exact Or.inl rfl
  · rintro (rfl | hx)
    · exact Or.inl rfl
    · rw [mem_subtreePaths] at hx
      obtain ⟨hv, hpre⟩ := hx
      rcases prefix_cons_cases a x hpre with rfl | ⟨j, hj⟩
      · exact Or.inl rfl
      · right
        left
        refine ⟨j, ?_, append_singleton_ne a j, ?_⟩
        · rw [childCount_iff]
          exact valid_of_prefix t (a ++ [j]) x hj hv
        · rw [mem_subtreePaths]
          exact ⟨hv, hj⟩

theorem below_step (t : TreeNode) (a : NPath)
    (ha : (subtreeAt t a).isSome = true) (B : List NPath) (c : NPath)
    (hB : ∀ x, x ∈ B ↔ x = a ∨ x ∈ subtreePaths t c)
    (hca : c <+: a) :
    ∀ x, x ∈ B ++ newNodesAt t c.dropLast c ↔
      x = a ∨ x ∈ subtreePaths t c.dropLast := by
  have hvc' : (subtreeAt t c.dropLast).isSome = true :=
    valid_of_prefix t c.dropLast a ((List.dropLast_prefix c).trans hca) ha
  have hsub : ∀ x, x ∈ subtreePaths t c → x ∈ subtreePaths t c.dropLast := by
    intro x hx
    rw [mem_subtreePaths] at hx ⊢
    exact ⟨hx.1, (List.dropLast_prefix c).trans hx.2⟩
  intro x
  rw [List.mem_append, hB, mem_newNodesAt]
  constructor
  · rintro ((rfl | hx) | ⟨j, hj, hne, hx⟩ | rfl)
    · exact Or.inl rfl
    · exact Or.inr (hsub x hx)
    · right
      rw [mem_subtreePaths] at hx ⊢
      exact ⟨hx.1, (List.prefix_append _ [j]).trans hx.2⟩
    · right
      rw [mem_subtreePaths]
      exact ⟨hvc', List.prefix_rfl⟩
  · rintro (rfl | hx)
    · exact Or.inl (Or.inl rfl)
    · rw [mem_subtreePaths] at hx
      obtain ⟨hv, hpre⟩ := hx
      rcases prefix_cons_cases c.dropLast x hpre with rfl | ⟨j, hj⟩
      · exact Or.inr (Or.inr rfl)
      · by_cases hjc : c.dropLast ++ [j] = c
        · left
          right
          rw [mem_subtreePaths]
          rw [hjc] at hj
          exact ⟨hv, hj⟩
        · right
          left
          refine ⟨j, ?_, hjc, ?_⟩
          · rw [childCount_iff]
            exact valid_of_prefix t _ x hj hv
          · rw [mem_subtreePaths]
            exact ⟨hv, hj⟩

theorem lcp_comm : ∀ (a b : NPath), lcp a b = lcp b a := by
  intro a
  induction a with
  | nil =>
    intro b
    cases b <;> rfl
  | cons i p ih =>
    intro b
    cases b with
    | nil => rfl
    | cons j q =>
      rw [lcp, lcp]
      by_cases h : i = j
      · subst h
        rw [if_pos rfl, if_pos rfl, ih q]
      · rw [if_neg h, if_neg (Ne.symm h)]

theorem prefix_lcp_iff : ∀ (a b c : NPath),
    c <+: lcp a b ↔ c <+: a ∧ c <+: b := by
  intro a
  induction a with
  | nil =>
    intro b c
    show c <+: [] ↔ c <+: [] ∧ c <+: b
    constructor
    · intro h
      have hc : c = [] := List.prefix_nil.mp h
      subst hc
      exact ⟨List.nil_prefix, List.nil_prefix⟩
    · exact fun h => h.1
  | cons i p ih =>
    intro b c
    cases b with
    | nil =>
      show c <+: [] ↔ c <+: (i :: p) ∧ c <+: []
      constructor
      · intro h
        have hc : c = [] := List.prefix_nil.mp h
        subst hc
        exact ⟨List.nil_prefix, List.nil_prefix⟩
      · exact fun h => h.2
    | cons j q =>
      rw [lcp]
      by_cases h : i = j
      · subst h
        rw [if_pos rfl]
        cases c with
        | nil =>
          simp [List.nil_prefix]
        | cons x c' =>
          rw [List.cons_prefix_cons, List.cons_prefix_cons,
            List.cons_prefix_cons, ih q c']
          constructor
          · rintro ⟨rfl, h1, h2⟩
            exact ⟨⟨rfl, h1⟩, ⟨rfl, h2⟩⟩
          · rintro ⟨⟨rfl, h1⟩, ⟨_, h2⟩⟩
            exact ⟨rfl, h1, h2⟩
      · rw [if_neg h]
        constructor
        · intro hc
          have hc0 : c = [] := List.prefix_nil.mp hc
          subst hc0
          exact ⟨List.nil_prefix, List.nil_prefix⟩
        · rintro ⟨h1, h2⟩
          cases c with
          | nil => exact List.nil_prefix
          | cons x c' =>
            rw [List.cons_prefix_cons] at h1 h2
            exact absurd (h1.1.symm.trans h2.1) h

theorem lcp_prefix_left (a b : NPath) : lcp a b <+: a :=
  ((prefix_lcp_iff a b (lcp a b)).mp List.prefix_rfl).1

theorem lcp_prefix_right (a b : NPath) : lcp a b <+: b :=
  ((prefix_lcp_iff a b (lcp a b)).mp List.prefix_rfl).2

theorem gcaLoop_succ (t : TreeNode) (a b : NPath) (fuel : Nat)
    (below : List NPath) (pn cur : NPath) :
    gcaLoop t a b (fuel + 1) below pn cur =
      (if a ∈ below ++ newNodesAt t cur pn ∧
          b ∈ below ++ newNodesAt t cur pn
       then some cur
       else if cur = [] then none
       else gcaLoop t a b fuel (below ++ newNodesAt t cur pn) cur
         cur.dropLast) := rfl

theorem gcaLoop_eq_lcp (t : TreeNode) (a b : NPath)
    (hav : (subtreeAt t a).isSome = true)
    (hbv : (subtreeAt t b).isSome = true) :
    ∀ (fuel : Nat) (below : List NPath) (pn cur : NPath),
      cur <+: a → lcp a b <+: cur → cur.length + 1 ≤ fuel →
      (∀ x, x ∈ below ++ newNodesAt t cur pn ↔
        x = a ∨ x ∈ subtreePaths t cur) →
      gcaLoop t a b fuel below pn cur = some (lcp a b) := by
  intro fuel
  induction fuel with
  | zero =>
    intro below pn cur _ _ hfuel _
    omega
  | succ fuel ih =>
    intro below pn cur hca hlc hfuel hB
    rw [gcaLoop_succ]
    by_cases hguard : a ∈ below ++ newNodesAt t cur pn ∧
        b ∈ below ++ newNodesAt t cur pn
    · rw [if_pos hguard]
      have hcb : cur <+: b := by
        rcases (hB b).mp hguard.2 with rfl | hx
        · exact hca
        · exact ((mem_subtreePaths t cur b).mp hx).2
      have hcl : cur <+: lcp a b := (prefix_lcp_iff a b cur).mpr ⟨hca, hcb⟩
      have heq : cur = lcp a b :=
        hcl.eq_of_length (le_antisymm hcl.length_le hlc.length_le)
      rw [heq]
    · rw [if_neg hguard]
      have haIn : a ∈ below ++ newNodesAt t cur pn :=
        (hB a).mpr (Or.inl rfl)
      have hncb : ¬ cur <+: b := by
        intro hcb
        exact hguard ⟨haIn,
          (hB b).mpr (Or.inr ((mem_subtreePaths t cur b).mpr ⟨hbv, hcb⟩))⟩
      have hne : cur ≠ lcp a b := by
        rintro rfl
        exact hncb (lcp_prefix_right a b)
      have hcur0 : cur ≠ [] := by
        rintro rfl
        exact hne (List.prefix_nil.mp hlc).symm
      rw [if_neg hcur0]
      have hlen : (lcp a b).length < cur.length := by
        rcases lt_or_eq_of_le hlc.length_le with h | h
        · exact h
        · exact absurd (hlc.eq_of_length h).symm hne
      apply ih
      · exact (List.dropLast_prefix cur).trans hca
      · exact List.prefix_of_prefix_length_le hlc (List.dropLast_prefix cur)
          (by rw [List.length_dropLast]; omega)
      · rw [List.length_dropLast]
        have := List.length_pos.mpr hcur0
        omega
      · exact below_step t a hav (below ++ newNodesAt t cur pn) cur hB hca

theorem gca_eq_lcp (t : TreeNode) (a b : NPath)
    (ha : (subtreeAt t a).isSome = true)
    (hb : (subtreeAt t b).isSome = true) :
    get_common_ancestor t a b = some (lcp a b) := by
  unfold get_common_ancestor
  exact gcaLoop_eq_lcp t a b ha hb (a.length + 1) [a] a a List.prefix_rfl
    (lcp_prefix_left a b) (by omega) (below_init t a ha)

/-- C1: for any two nodes of a tree, `get_common_ancestor` returns a node
that is an ancestor-or-self of both (its path is a prefix of both paths),
and no proper descendant of the returned node is an ancestor-or-self of
both (minimality). -/
theorem get_common_ancestor_is_lca (t : TreeNode) (a b : NPath)
    (ha : (subtreeAt t a).isSome = true)
    (hb : (subtreeAt t b).isSome = true) :
    ∃ c, get_common_ancestor t a b = some c ∧ c <+: a ∧ c <+: b ∧
      ∀ d, (subtreeAt t d).isSome = true → c <+: d → c ≠ d →
        ¬(d <+: a ∧ d <+: b) := by
  refine ⟨lcp a b, gca_eq_lcp t a b ha hb, lcp_prefix_left a b,
    lcp_prefix_right a b, ?_⟩
  intro d _ hcd hne hd
  have hdl : d <+: lcp a b := (prefix_lcp_iff a b d).mpr hd
  exact hne (hcd.eq_of_length (le_antisymm hcd.length_le hdl.length_le))

/-- C1 (witness): the theorem applied to the leaves `A` (path `[0,0]`)
and `C` (path `[1]`) of `((A,B)X,C)R`; their common ancestor is the
root. -/
theorem get_common_ancestor_is_lca_witness :
    (subtreeAt exTree [0, 0]).isSome = true ∧
    (subtreeAt exTree [1]).isSome = true ∧
    (∃ c, get_common_ancestor exTree [0, 0] [1] = some c ∧
      c <+: [0, 0] ∧ c <+: ([1] : NPath) ∧
      ∀ d, (subtreeAt exTree d).isSome = true → c <+: d → c ≠ d →
        ¬(d <+: [0, 0] ∧ d <+: ([1] : NPath))) :=
  ⟨by decide, by decide,
    get_common_ancestor_is_lca exTree [0, 0] [1] (by decide) (by decide)⟩

/-- C2: `get_distance` is symmetric — the common ancestor does not depend
on which endpoint plays `self`, and the two climb sums are added in the
opposite order (exact rational arithmetic; the Python float sums add the
same addends). -/
theorem get_distance_comm (t : TreeNode) (a b : NPath)
    (ha : (subtreeAt t a).isSome = true)
    (hb : (subtreeAt t b).isSome = true) :
    get_distance t a b = get_distance t b a := by
  unfold get_distance
  rw [gca_eq_lcp t a b ha hb, gca_eq_lcp t b a hb ha, lcp_comm a b]
  show some (climbSum t (lcp b a) a.length a +
      climbSum t (lcp b a) b.length b) =
    some (climbSum t (lcp b a) b.length b +
      climbSum t (lcp b a) a.length a)
  rw [add_comm]

/-- C2 (witness): the distance between `A` and `C` of `((A,B)X,C)R` is
the same in both directions. -/
theorem get_distance_comm_witness :
    (subtreeAt exTree [0, 0]).isSome = true ∧
    (subtreeAt exTree [1]).isSome = true ∧
    get_distance exTree [0, 0] [1] = get_distance exTree [1] [0, 0] :=
  ⟨by decide, by decide,
    get_distance_comm exTree [0, 0] [1] (by decide) (by decide)⟩
